import Mathlib

/-!
# Readers-writers with writer priority (`rw.go`)

A shallow embedding of `reader` and `writer` from `rw.go` as an interleaving
transition system, and the properties of the protocol proved over it.

* The globals `value` (through `p`), `readerCount`, `pendingWriters`, `mu`, `db`
  are fields of `State`.  Go's `int` is modelled by `Int`: the counters are
  bounded by the number of goroutines and `value` by five times that number,
  so 64-bit wrap-around is out of reach (`Reach.int_range` below).
* `sync.Mutex` has no owner in Go: a mutex is a `Bool` (locked or not), `Lock`
  is enabled only when it is unlocked, `Unlock` of an unlocked mutex is the
  runtime's fatal error.
* `cond.Wait()` adds the caller to the notify list and unlocks `mu` (one step,
  the caller holds `mu` so no `Broadcast` can come in between), suspends until
  notified, and then locks `mu` again.  The notify list is the set of readers
  whose program counter is `blocked`.
* Every task has a program counter naming the statement it executes next; one
  step executes one statement (`*p += 5` is a load followed by a store).
* `read()` and `write()` (both `sleep`) are steps without effect: a delay is
  an arbitrary number of steps of other tasks.
* The driver (`main`, the wait groups) is outside the model: a goroutine that
  is not yet spawned is a task that has not yet taken its first step.
* The model is that of `reader` and `writer` (l.106-157).  `main` as committed
  starts `verboseReader` and `verboseWriter`, which interleave further
  `fmt.Printf` calls with the same statements; they are modelled by `vstepR`
  and `vstepW` and related to the minimal variants by erasing the statements
  that only print.
-/

namespace RW

/-- Program counter of `reader`: the statement executed NEXT (line of `rw.go`). -/
inductive RPc where
  /-- l.109 `mu.Lock()` -/
  | lock1
  /-- l.111 `for pendingWriters > 0` -/
  | loop
  /-- l.112 `cond.Wait()`: join the notify list and unlock `mu` -/
  | wait
  /-- l.112 suspended inside `cond.Wait()`, not yet notified -/
  | blocked
  /-- l.112 notified inside `cond.Wait()`, about to lock `mu` again -/
  | woken
  /-- l.115 `readerCount++` -/
  | inc
  /-- l.116 `if readerCount == 1` -/
  | ifFirst
  /-- l.117 `db.Lock()` -/
  | dbLock
  /-- l.119 `mu.Unlock()` -/
  | unlock1
  /-- l.122 `fmt.Printf("Reader%d: %d\n", id, *p)` -/
  | print
  /-- l.123 `read()` -/
  | read
  /-- l.125 `mu.Lock()` -/
  | lock2
  /-- l.127 `readerCount--` -/
  | dec
  /-- l.128 `if readerCount == 0` -/
  | ifLast
  /-- l.129 `db.Unlock()` -/
  | dbUnlock
  /-- l.131 `mu.Unlock()` -/
  | unlock2
  /-- returned -/
  | done
  deriving DecidableEq, Repr

/-- Program counter of `writer`: the statement executed NEXT (line of `rw.go`). -/
inductive WPc where
  /-- l.139 `mu.Lock()` -/
  | lock1
  /-- l.140 `pendingWriters++` -/
  | inc
  /-- l.141 `mu.Unlock()` -/
  | unlock1
  /-- l.144 `db.Lock()` -/
  | dbLock
  /-- l.145 `*p += 5`, the load of `*p` -/
  | load
  /-- l.145 `*p += 5`, the store of the loaded value plus 5 -/
  | store (tmp : Int)
  /-- l.146 `fmt.Printf("Writer%d: %d\n", id, *p)` -/
  | print
  /-- l.147 `write()` -/
  | write
  /-- l.148 `db.Unlock()` -/
  | dbUnlock
  /-- l.150 `mu.Lock()` -/
  | lock2
  /-- l.152 `pendingWriters--` -/
  | dec
  /-- l.153 `if pendingWriters == 0` -/
  | ifZero
  /-- l.154 `cond.Broadcast()` -/
  | broadcast
  /-- l.156 `mu.Unlock()` -/
  | unlock2
  /-- returned -/
  | done
  deriving DecidableEq, Repr

/-- A line written to standard output: who printed, its `id`, the value of `*p` printed. -/
inductive Line where
  | reader (id : Nat) (v : Int)
  | writer (id : Nat) (v : Int)
  deriving DecidableEq, Repr

/-- The globals of `rw.go` and the program counters of the reader and writer goroutines
(`rs[i]` is `reader(i)`, `ws[j]` is `writer(j)`). -/
structure State where
  value : Int
  readerCount : Int
  pendingWriters : Int
  mu : Bool
  db : Bool
  rs : List RPc
  ws : List WPc
  out : List Line
  deriving DecidableEq, Repr

/-- What happens when a task is scheduled. -/
inductive Outcome where
  /-- the statement was executed -/
  | next (s : State)
  /-- the task cannot proceed now (`Lock` of a locked mutex, suspended in `Wait`) -/
  | blocked
  /-- the Go runtime aborts the program (`Unlock` of an unlocked mutex) -/
  | fatal
  /-- the task has returned -/
  | returned
  /-- there is no such task -/
  | absent
  deriving DecidableEq, Repr

/-- Effect of `cond.Broadcast()` on a reader: whoever is on the notify list is notified. -/
def wake : RPc → RPc
  | .blocked => .woken
  | pc => pc

/-- Reader `i` moves to `pc`. -/
def State.setR (s : State) (i : Nat) (pc : RPc) : State :=
  { s with rs := s.rs.set i pc }

/-- Writer `j` moves to `pc`. -/
def State.setW (s : State) (j : Nat) (pc : WPc) : State :=
  { s with ws := s.ws.set j pc }

/-- One statement of `reader(i)`. -/
def stepR (i : Nat) (s : State) : Outcome :=
  match s.rs[i]? with
  | none => .absent
  | some .lock1 =>
      if s.mu then .blocked else .next ({ s with mu := true }.setR i .loop)
  | some .loop =>
      if s.pendingWriters > 0 then .next (s.setR i .wait) else .next (s.setR i .inc)
  | some .wait =>
      if s.mu then .next ({ s with mu := false }.setR i .blocked) else .fatal
  | some .blocked => .blocked
  | some .woken =>
      if s.mu then .blocked else .next ({ s with mu := true }.setR i .loop)
  | some .inc =>
      .next ({ s with readerCount := s.readerCount + 1 }.setR i .ifFirst)
  | some .ifFirst =>
      if s.readerCount = 1 then .next (s.setR i .dbLock) else .next (s.setR i .unlock1)
  | some .dbLock =>
      if s.db then .blocked else .next ({ s with db := true }.setR i .unlock1)
  | some .unlock1 =>
      if s.mu then .next ({ s with mu := false }.setR i .print) else .fatal
  | some .print =>
      .next ({ s with out := s.out ++ [Line.reader i s.value] }.setR i .read)
  | some .read => .next (s.setR i .lock2)
  | some .lock2 =>
      if s.mu then .blocked else .next ({ s with mu := true }.setR i .dec)
  | some .dec =>
      .next ({ s with readerCount := s.readerCount - 1 }.setR i .ifLast)
  | some .ifLast =>
      if s.readerCount = 0 then .next (s.setR i .dbUnlock) else .next (s.setR i .unlock2)
  | some .dbUnlock =>
      if s.db then .next ({ s with db := false }.setR i .unlock2) else .fatal
  | some .unlock2 =>
      if s.mu then .next ({ s with mu := false }.setR i .done) else .fatal
  | some .done => .returned

/-- One statement of `writer(j)`. -/
def stepW (j : Nat) (s : State) : Outcome :=
  match s.ws[j]? with
  | none => .absent
  | some .lock1 =>
      if s.mu then .blocked else .next ({ s with mu := true }.setW j .inc)
  | some .inc =>
      .next ({ s with pendingWriters := s.pendingWriters + 1 }.setW j .unlock1)
  | some .unlock1 =>
      if s.mu then .next ({ s with mu := false }.setW j .dbLock) else .fatal
  | some .dbLock =>
      if s.db then .blocked else .next ({ s with db := true }.setW j .load)
  | some .load => .next (s.setW j (.store s.value))
  | some (.store tmp) => .next ({ s with value := tmp + 5 }.setW j .print)
  | some .print =>
      .next ({ s with out := s.out ++ [Line.writer j s.value] }.setW j .write)
  | some .write => .next (s.setW j .dbUnlock)
  | some .dbUnlock =>
      if s.db then .next ({ s with db := false }.setW j .lock2) else .fatal
  | some .lock2 =>
      if s.mu then .blocked else .next ({ s with mu := true }.setW j .dec)
  | some .dec =>
      .next ({ s with pendingWriters := s.pendingWriters - 1 }.setW j .ifZero)
  | some .ifZero =>
      if s.pendingWriters = 0 then .next (s.setW j .broadcast) else .next (s.setW j .unlock2)
  | some .broadcast =>
      .next ({ s with rs := s.rs.map wake }.setW j .unlock2)
  | some .unlock2 =>
      if s.mu then .next ({ s with mu := false }.setW j .done) else .fatal
  | some .done => .returned

/-- A task: reader `i` or writer `j`. -/
inductive Tid where
  | r (i : Nat)
  | w (j : Nat)
  deriving DecidableEq, Repr

/-- The scheduler picks task `t`. -/
def step : Tid → State → Outcome
  | .r i => stepR i
  | .w j => stepW j

/-- The state at program start with `n` readers and `m` writers to run:
`value = 0`, `readerCount = 0`, `pendingWriters = 0`, both mutexes unlocked. -/
def init (n m : Nat) : State :=
  { value := 0, readerCount := 0, pendingWriters := 0, mu := false, db := false,
    rs := List.replicate n .lock1, ws := List.replicate m .lock1, out := [] }

/-- The states reachable from `init n m` under any interleaving. -/
inductive Reach (n m : Nat) : State → Prop where
  | init : Reach n m (init n m)
  | step {s s' : State} (t : Tid) : Reach n m s → step t s = .next s' → Reach n m s'

/-- Run a schedule: the tasks in the list take one step each, in order; `none` as soon
as a scheduled task cannot take a step. -/
def run : List Tid → State → Option State
  | [], s => some s
  | t :: ts, s =>
      match step t s with
      | .next s' => run ts s'
      | _ => none

/-- Number of readers whose program counter satisfies `p`. -/
def State.nR (s : State) (p : RPc → Bool) : Nat := s.rs.countP p

/-- Number of writers whose program counter satisfies `p`. -/
def State.nW (s : State) (p : WPc → Bool) : Nat := s.ws.countP p

/-- The reader holds `mu` (between a `mu.Lock()`, or the return of `cond.Wait()`, and the
next `mu.Unlock()` or `cond.Wait()`). -/
def RPc.holdsMu : RPc → Bool
  | .loop | .wait | .inc | .ifFirst | .dbLock | .unlock1
  | .dec | .ifLast | .dbUnlock | .unlock2 => true
  | _ => false

/-- The reader is inside its admitted window: it has executed `readerCount++` and not yet
`readerCount--`. -/
def RPc.admitted : RPc → Bool
  | .ifFirst | .dbLock | .unlock1 | .print | .read | .lock2 | .dec => true
  | _ => false

/-- The reader has left the wait loop with `pendingWriters = 0` and has not yet
finished `if readerCount == 1 { db.Lock() }`. -/
def RPc.entering : RPc → Bool
  | .inc | .ifFirst | .dbLock => true
  | _ => false

/-- The reader holds `mu` at a statement that touches neither `db` nor the wait loop. -/
def RPc.calm : RPc → Bool
  | .loop | .unlock1 | .dec | .unlock2 => true
  | _ => false

def RPc.isInc : RPc → Bool
  | .inc => true
  | _ => false

def RPc.isWait : RPc → Bool
  | .wait => true
  | _ => false

def RPc.isBlocked : RPc → Bool
  | .blocked => true
  | _ => false

def RPc.isIfFirst : RPc → Bool
  | .ifFirst => true
  | _ => false

def RPc.isDbLock : RPc → Bool
  | .dbLock => true
  | _ => false

def RPc.isIfLast : RPc → Bool
  | .ifLast => true
  | _ => false

def RPc.isDbUnlock : RPc → Bool
  | .dbUnlock => true
  | _ => false

def RPc.isDone : RPc → Bool
  | .done => true
  | _ => false

/-- The writer holds `mu`. -/
def WPc.holdsMu : WPc → Bool
  | .inc | .unlock1 | .dec | .ifZero | .broadcast | .unlock2 => true
  | _ => false

/-- The writer is pending: it has executed `pendingWriters++` and not yet
`pendingWriters--`. -/
def WPc.pending : WPc → Bool
  | .unlock1 | .dbLock | .load | .store _ | .print | .write | .dbUnlock | .lock2 | .dec => true
  | _ => false

/-- The writer is inside its admitted window: its `db.Lock()` has returned and it has not
yet executed `db.Unlock()`. -/
def WPc.inWindow : WPc → Bool
  | .load | .store _ | .print | .write | .dbUnlock => true
  | _ => false

/-- The writer is between the load and the store of `*p += 5`. -/
def WPc.isStore : WPc → Bool
  | .store _ => true
  | _ => false

/-- The writer is between the load and the store of `*p += 5` and has loaded `v`. -/
def WPc.loaded (v : Int) : WPc → Bool
  | .store t => t == v
  | _ => false

/-- The writer has completed `*p += 5`. -/
def WPc.stored : WPc → Bool
  | .print | .write | .dbUnlock | .lock2 | .dec | .ifZero | .broadcast | .unlock2 | .done => true
  | _ => false

/-- The writer has executed `pendingWriters--` and not yet passed `cond.Broadcast()`. -/
def WPc.announcing : WPc → Bool
  | .ifZero | .broadcast => true
  | _ => false

def WPc.isDone : WPc → Bool
  | .done => true
  | _ => false

/-- The writer is past its `db.Lock()`: it has been admitted. -/
def WPc.wasAdmitted : WPc → Bool
  | .lock1 | .inc | .unlock1 | .dbLock => false
  | _ => true

/-- The inductive invariant of the protocol. `mu.toNat` and `db.toNat` are 1 when the mutex
is locked. -/
structure Inv (s : State) : Prop where
  mutex : s.nR RPc.holdsMu + s.nW WPc.holdsMu = s.mu.toNat
  rc : s.readerCount = s.nR RPc.admitted
  pw : s.pendingWriters = s.nW WPc.pending
  guard : 1 ≤ s.nR RPc.entering → s.pendingWriters = 0
  waitG : 1 ≤ s.nR RPc.isWait → 1 ≤ s.pendingWriters
  win : s.nW WPc.inWindow ≤ 1
  dbUnl : 1 ≤ s.nR RPc.isDbUnlock →
    s.readerCount = 0 ∧ s.db.toNat = 1 ∧ s.nW WPc.inWindow = 0
  dbIfL : 1 ≤ s.nR RPc.isIfLast → s.db.toNat = 1 ∧ s.nW WPc.inWindow = 0
  dbLck : 1 ≤ s.nR RPc.isDbLock → s.readerCount = 1 ∧ s.db.toNat = s.nW WPc.inWindow
  dbIfF : 1 ≤ s.nR RPc.isIfFirst →
    (s.readerCount = 1 → s.db.toNat = s.nW WPc.inWindow) ∧
    (s.readerCount ≠ 1 → s.db.toNat = 1 ∧ s.nW WPc.inWindow = 0)
  dbIdle : s.nR RPc.isDbUnlock + s.nR RPc.isIfLast + s.nR RPc.isDbLock
      + s.nR RPc.isIfFirst = 0 →
    (s.readerCount = 0 → s.db.toNat = s.nW WPc.inWindow) ∧
    (s.readerCount ≠ 0 → s.db.toNat = 1 ∧ s.nW WPc.inWindow = 0)
  blk : 1 ≤ s.nR RPc.isBlocked → 1 ≤ s.pendingWriters ∨ 1 ≤ s.nW WPc.announcing
  val : s.value = 5 * (s.nW WPc.stored : Int)
  tmp : s.nW (WPc.loaded s.value) = s.nW WPc.isStore

/-- One step of some task leads from the first state to the second. -/
def Step (s s' : State) : Prop := ∃ t, step t s = .next s'

/-- Executions: finitely many steps lead from the first state to the second. -/
inductive Steps : State → State → Prop where
  | refl (s : State) : Steps s s
  | tail {s s' s'' : State} (t : Tid) : Steps s s' → step t s' = .next s'' → Steps s s''

/-- Every reader and every writer has returned. -/
def State.allDone (s : State) : Prop :=
  (∀ pc ∈ s.rs, pc = RPc.done) ∧ (∀ pc ∈ s.ws, pc = WPc.done)

instance (s : State) : Decidable s.allDone := by
  unfold State.allDone
  exact inferInstance

/-- Distance of a reader from its return, counted in statements; a reader suspended in
`cond.Wait()` is ranked below the notified one, which still has the wait loop ahead. -/
def RPc.rank : RPc → Nat
  | .done => 0
  | .unlock2 => 1
  | .dbUnlock => 2
  | .ifLast => 3
  | .dec => 4
  | .lock2 => 5
  | .read => 6
  | .print => 7
  | .unlock1 => 8
  | .dbLock => 9
  | .ifFirst => 10
  | .inc => 11
  | .blocked => 12
  | .wait => 13
  | .loop => 14
  | .woken => 15
  | .lock1 => 15

/-- Distance of a writer from its return, counted in statements; a writer that may still
broadcast is charged the `3 * n` statements by which a broadcast can raise the ranks of
the `n` readers. -/
def WPc.rank (n : Nat) : WPc → Nat
  | .done => 0
  | .unlock2 => 1
  | .broadcast => 2 + 3 * n
  | .ifZero => 3 + 3 * n
  | .dec => 4 + 3 * n
  | .lock2 => 5 + 3 * n
  | .dbUnlock => 6 + 3 * n
  | .write => 7 + 3 * n
  | .print => 8 + 3 * n
  | .store _ => 9 + 3 * n
  | .load => 10 + 3 * n
  | .dbLock => 11 + 3 * n
  | .unlock1 => 12 + 3 * n
  | .inc => 13 + 3 * n
  | .lock1 => 14 + 3 * n

/-- Termination measure: the sum of the ranks of all tasks. -/
def State.measure (s : State) : Nat :=
  (s.rs.map RPc.rank).sum + (s.ws.map (WPc.rank s.rs.length)).sum

/-- Bound on the length of an execution of `n` readers and `m` writers. -/
def bound (n m : Nat) : Nat := 15 * n + (14 + 3 * n) * m

/-- Writer `j` runs alone, for at most `fuel` statements, until it has returned. -/
def runWriter (j : Nat) : Nat → State → Option State
  | 0, _ => none
  | fuel + 1, s =>
      match stepW j s with
      | .next s' => runWriter j fuel s'
      | .returned => some s
      | _ => none

/-- The release part of `writer(j)` (l.148-156 and the return), run without interference
from the state in which the writer is about to execute `db.Unlock()`. -/
def endWrite (j : Nat) (s : State) : Option State :=
  match s.ws[j]? with
  | some .dbUnlock => runWriter j 7 s
  | _ => none

/-- The statement reads or writes `readerCount` or `pendingWriters`
(l.111, 115, 116, 127, 128). -/
def RPc.touchesCounters : RPc → Bool
  | .loop | .inc | .ifFirst | .dec | .ifLast => true
  | _ => false

/-- The statement reads or writes `readerCount` or `pendingWriters` (l.140, 152, 153). -/
def WPc.touchesCounters : WPc → Bool
  | .inc | .dec | .ifZero => true
  | _ => false

/-- The statement reads `*p` (l.122). -/
def RPc.readsValue : RPc → Bool
  | .print => true
  | _ => false

/-- The statement reads `*p` (l.145 load, l.146). -/
def WPc.readsValue : WPc → Bool
  | .load | .print => true
  | _ => false

/-- The program counter of task `t` satisfies the reader predicate `p`, respectively the
writer predicate `q`. -/
def State.taskAt (s : State) (t : Tid) (p : RPc → Bool) (q : WPc → Bool) : Prop :=
  match t with
  | .r i => ∃ pc, s.rs[i]? = some pc ∧ p pc = true
  | .w j => ∃ pc, s.ws[j]? = some pc ∧ q pc = true

/-- The reader can execute its next statement when the mutexes are in the given state. -/
def RPc.enabled (mu db : Bool) : RPc → Bool
  | .lock1 | .woken | .lock2 => !mu
  | .wait | .unlock1 | .unlock2 => mu
  | .dbLock => !db
  | .dbUnlock => db
  | .blocked | .done => false
  | _ => true

/-- The writer can execute its next statement when the mutexes are in the given state. -/
def WPc.enabled (mu db : Bool) : WPc → Bool
  | .lock1 | .lock2 => !mu
  | .unlock1 | .unlock2 => mu
  | .dbLock => !db
  | .dbUnlock => db
  | .done => false
  | _ => true

/-- The state in which the first `k` of `n` readers are inside their admitted windows, about
to print, and nobody else has started. -/
def crowd (n m k : Nat) : State :=
  { value := 0, readerCount := k, pendingWriters := 0, mu := false, db := true,
    rs := List.replicate k .print ++ List.replicate (n - k) .lock1,
    ws := List.replicate m .lock1, out := [] }

/-- The values the lines of the output may show with `m` writers: a reader prints one of
`0, 5, ..., 5 * m`, a writer one of `5, ..., 5 * m`. -/
def Line.ok (m : Nat) : Line → Prop
  | .reader _ v => ∃ k : Nat, k ≤ m ∧ v = 5 * (k : Int)
  | .writer _ v => ∃ k : Nat, 1 ≤ k ∧ k ≤ m ∧ v = 5 * (k : Int)

/-- Task `t` runs `k` statements in a row. -/
def solo (t : Tid) (k : Nat) : List Tid := List.replicate k t

/-- A schedule of `main`'s configuration, 5 readers and 3 writers: writer 0 completes, then
readers 0 and 1 enter together and leave, then writers 1 and 2 and the readers 2, 3, 4
complete one after the other. -/
def demoSched : List Tid :=
  solo (.w 0) 14 ++ solo (.r 0) 7 ++ solo (.r 1) 6 ++ solo (.r 0) 5 ++ solo (.r 1) 6 ++
  solo (.w 1) 14 ++ solo (.w 2) 14 ++ solo (.r 2) 13 ++ solo (.r 3) 13 ++ solo (.r 4) 13

/-- Two readers, two writers: writer 0 is between the load and the store of `*p += 5`,
writer 1 waits for `db`, reader 0 is suspended in `cond.Wait()`, reader 1 has not started. -/
def midWrite : State :=
  { value := 0, readerCount := 0, pendingWriters := 2, mu := false, db := true,
    rs := [.blocked, .lock1], ws := [.store 0, .dbLock], out := [] }

/-- A schedule that leads to `midWrite`. -/
def midWriteSched : List Tid := solo (.w 0) 5 ++ solo (.w 1) 3 ++ solo (.r 0) 3

/-- The terminal state of `demoSched`. -/
def demoFinal : State :=
  { value := 15, readerCount := 0, pendingWriters := 0, mu := false, db := false,
    rs := [.done, .done, .done, .done, .done], ws := [.done, .done, .done],
    out := [.writer 0 5, .reader 0 5, .reader 1 5, .writer 1 10, .writer 2 15,
      .reader 2 15, .reader 3 15, .reader 4 15] }

/-- Two readers, one writer: the writer has written and is about to execute `db.Unlock()`,
reader 0 is suspended in `cond.Wait()`, reader 1 has not started. -/
def lastWrite : State :=
  { value := 5, readerCount := 0, pendingWriters := 1, mu := false, db := true,
    rs := [.blocked, .lock1], ws := [.dbUnlock], out := [.writer 0 5] }

/-- A schedule that leads to `lastWrite`. -/
def lastWriteSched : List Tid := solo (.w 0) 3 ++ solo (.r 0) 3 ++ solo (.w 0) 5

/-- The state in which the first `k` of `k + 1 + r` readers are about to read and reader `k`
is at `pc`, with the given `readerCount` and state of `mu`. -/
def crowdPlus (k r m : Nat) (pc : RPc) (rc : Int) (mu : Bool) : State :=
  { value := 0, readerCount := rc, pendingWriters := 0, mu := mu, db := true,
    rs := List.replicate k .print ++ pc :: List.replicate r .lock1,
    ws := List.replicate m .lock1, out := [] }

/-! ## Release parts, lock events -/

/-- Reader `i` runs alone, for at most `fuel` statements, until it has returned. -/
def runReader (i : Nat) : Nat → State → Option State
  | 0, _ => none
  | fuel + 1, s =>
      match stepR i s with
      | .next s' => runReader i fuel s'
      | .returned => some s
      | _ => none

/-- The release part of `reader(i)` (l.125-131 and the return), run without interference
from the state in which the reader is about to execute its second `mu.Lock()`. The
arithmetic is that of `stepR`, on unbounded integers; it is Go's `readerCount--` as long as
`readerCount` is a 64-bit `int` above the smallest one, and the statements about `endRead`
over arbitrary states carry that hypothesis. -/
def endRead (i : Nat) (s : State) : Option State :=
  match s.rs[i]? with
  | some .lock2 => runReader i 6 s
  | _ => none

/-- The initial state of one reader, with the reader placed at its release part although it
has not executed its entry part. -/
def unmatchedRead : State := { init 1 0 with rs := [.lock2] }

/-- The initial state of one writer, with the writer placed at its release part although it
has not executed its entry part. -/
def unmatchedWrite : State := { init 0 1 with ws := [.dbUnlock] }

/-- One reader, one writer: the reader is suspended in `cond.Wait()`, the writer has
executed `pendingWriters--` and is about to test `pendingWriters == 0`. -/
def lastDec : State :=
  { value := 5, readerCount := 0, pendingWriters := 0, mu := true, db := false,
    rs := [.blocked], ws := [.ifZero], out := [.writer 0 5] }

/-- A schedule that leads to `lastDec`. -/
def lastDecSched : List Tid := solo (.w 0) 3 ++ solo (.r 0) 3 ++ solo (.w 0) 8

/-- One reader, no writer: the reader has raised `readerCount` to 1 and is about to execute
`db.Lock()`. -/
def firstLock : State :=
  { value := 0, readerCount := 1, pendingWriters := 0, mu := true, db := false,
    rs := [.dbLock], ws := [], out := [] }

/-- Counter of the event: 1 if the step of task `t` in state `s` is the `readerCount++` that
raises it from 0 to 1, else 0. -/
def evUp (t : Tid) (s : State) : Nat :=
  match t with
  | .r i =>
      match s.rs[i]? with
      | some .inc => if s.readerCount = 0 then 1 else 0
      | _ => 0
  | .w _ => 0

/-- Counter of the event: 1 if the step of task `t` in state `s` is the `readerCount--` that
lowers it from 1 to 0, else 0. -/
def evDown (t : Tid) (s : State) : Nat :=
  match t with
  | .r i =>
      match s.rs[i]? with
      | some .dec => if s.readerCount = 1 then 1 else 0
      | _ => 0
  | .w _ => 0

/-- Counter of the event: 1 if the step of task `t` in state `s` is a reader's `db.Lock()`. -/
def evRLock (t : Tid) (s : State) : Nat :=
  match t with
  | .r i =>
      match s.rs[i]? with
      | some .dbLock => 1
      | _ => 0
  | .w _ => 0

/-- Counter of the event: 1 if the step of task `t` in state `s` is a reader's
`db.Unlock()`. -/
def evRUnlock (t : Tid) (s : State) : Nat :=
  match t with
  | .r i =>
      match s.rs[i]? with
      | some .dbUnlock => 1
      | _ => 0
  | .w _ => 0

/-- Counter of the event: 1 if the step of task `t` in state `s` is the `db.Lock()` of
writer `j`. -/
def evWLock (j : Nat) (t : Tid) (s : State) : Nat :=
  match t with
  | .r _ => 0
  | .w k =>
      match s.ws[k]? with
      | some .dbLock => if k = j then 1 else 0
      | _ => 0

/-- Counter of the event: 1 if the step of task `t` in state `s` is the `db.Unlock()` of
writer `j`. -/
def evWUnlock (j : Nat) (t : Tid) (s : State) : Nat :=
  match t with
  | .r _ => 0
  | .w k =>
      match s.ws[k]? with
      | some .dbUnlock => if k = j then 1 else 0
      | _ => 0

/-- Number of events counted by `ev` in the run of a schedule. -/
def countRun (ev : Tid → State → Nat) : List Tid → State → Nat
  | [], _ => 0
  | t :: ts, s =>
      match step t s with
      | .next s' => ev t s + countRun ev ts s'
      | _ => 0

/-- The flag of writer `j`: 1 if its program counter satisfies `p`, else 0. -/
def State.wFlag (s : State) (p : WPc → Bool) (j : Nat) : Nat :=
  match s.ws[j]? with
  | some pc => (p pc).toNat
  | none => 0

/-- Number of readers that have raised `readerCount` from 0 to 1 and not yet executed the
`db.Lock()` that follows. -/
def State.firstPending (s : State) : Nat :=
  s.nR RPc.isDbLock + (if 1 ≤ s.nR RPc.isIfFirst ∧ s.readerCount = 1 then 1 else 0)

/-- Number of readers that have lowered `readerCount` from 1 to 0 and not yet executed the
`db.Unlock()` that follows. -/
def State.lastPending (s : State) : Nat :=
  s.nR RPc.isDbUnlock + (if 1 ≤ s.nR RPc.isIfLast ∧ s.readerCount = 0 then 1 else 0)

/-- The writer is past its `db.Unlock()`. -/
def WPc.released : WPc → Bool
  | .lock2 | .dec | .ifZero | .broadcast | .unlock2 | .done => true
  | _ => false

/-- One reader, two writers: writer 0 has written and is about to execute `db.Unlock()` with
`pendingWriters = 1`, reader 0 is suspended in `cond.Wait()`, writer 1 has not started, `mu`
is unlocked. -/
def busyRelease : State :=
  { value := 5, readerCount := 0, pendingWriters := 1, mu := false, db := true,
    rs := [.blocked], ws := [.dbUnlock, .lock1], out := [.writer 0 5] }

/-- A schedule that leads from `init 1 2` to `busyRelease`. -/
def busyReleaseSched : List Tid := solo (.w 0) 8 ++ solo (.r 0) 3

/-- An interleaving of the release part of writer 0 with the entry part of writer 1: writer 0
executes `db.Unlock()`, writer 1 executes `mu.Lock()`, `pendingWriters++`, `mu.Unlock()`,
then writer 0 executes the rest of its release part. -/
def busyInterleaving : List Tid := solo (.w 0) 1 ++ solo (.w 1) 3 ++ solo (.w 0) 4

/-- The state `busyInterleaving` leads to from `busyRelease`: writer 0 has returned. -/
def busyReleased : State :=
  { value := 5, readerCount := 0, pendingWriters := 1, mu := false, db := false,
    rs := [.blocked], ws := [.done, .dbLock], out := [.writer 0 5] }

/-- One reader, one writer: the writer is about to execute `db.Unlock()` while the reader
holds `mu` at its loop test. -/
def heldRelease : State :=
  { value := 5, readerCount := 0, pendingWriters := 1, mu := true, db := true,
    rs := [.loop], ws := [.dbUnlock], out := [.writer 0 5] }

/-- One reader inside its admitted window (it holds `db`) and one writer placed at its
release part although it has not executed its entry part. -/
def strayWrite : State :=
  { value := 0, readerCount := 1, pendingWriters := 0, mu := false, db := true,
    rs := [.print], ws := [.dbUnlock], out := [] }

/-! ## The verbose variants -/

/-- Program counter of `verboseReader`: the statement executed NEXT (line of `rw.go`). -/
inductive VRPc where
  /-- l.50 `mu.Lock()` -/
  | lock1
  /-- l.51 `fmt.Printf("reader%d: wants to read\n", id)` -/
  | sayWants
  /-- l.52 `for pendingWriters > 0` -/
  | loop
  /-- l.53 `fmt.Printf("reader%d: pending writer(s), wait\n", id)` -/
  | sayWait
  /-- l.54 `cond.Wait()`: join the notify list and unlock `mu` -/
  | wait
  /-- l.54 suspended inside `cond.Wait()`, not yet notified -/
  | blocked
  /-- l.54 notified inside `cond.Wait()`, about to lock `mu` again -/
  | woken
  /-- l.57 `fmt.Printf("reader%d: no pending writer\n", id)` -/
  | sayNoPending
  /-- l.58 `readerCount++` -/
  | inc
  /-- l.59 `if readerCount == 1` -/
  | ifFirst
  /-- l.60 `fmt.Printf("reader%d: first reader -> lock db\n", id)` -/
  | sayFirst
  /-- l.61 `db.Lock()` -/
  | dbLock
  /-- l.63 `mu.Unlock()` -/
  | unlock1
  /-- l.65 `fmt.Printf("reader%d: read: %d\n", id, *p)` -/
  | print
  /-- l.66 `read()` -/
  | read
  /-- l.68 `mu.Lock()` -/
  | lock2
  /-- l.69 `fmt.Printf("reader%d: done reading\n", id)` -/
  | sayDone
  /-- l.70 `readerCount--` -/
  | dec
  /-- l.71 `if readerCount == 0` -/
  | ifLast
  /-- l.72 `fmt.Printf("reader%d: last reader -> unlock db\n", id)` -/
  | sayLast
  /-- l.73 `db.Unlock()` -/
  | dbUnlock
  /-- l.75 `mu.Unlock()` -/
  | unlock2
  /-- returned -/
  | done
  deriving DecidableEq, Repr

/-- Program counter of `verboseWriter`: the statement executed NEXT (line of `rw.go`). -/
inductive VWPc where
  /-- l.82 `mu.Lock()` -/
  | lock1
  /-- l.83 `pendingWriters++` -/
  | inc
  /-- l.84 `fmt.Printf("writer%d: wants to write\n", id)` -/
  | sayWants
  /-- l.85 `mu.Unlock()` -/
  | unlock1
  /-- l.87 `fmt.Printf("writer%d: wait for access to db\n", id)` -/
  | sayWaitDb
  /-- l.88 `db.Lock()` -/
  | dbLock
  /-- l.89 `fmt.Printf("writer%d: got access to db\n", id)` -/
  | sayGot
  /-- l.90 `*p += 5`, the load of `*p` -/
  | load
  /-- l.90 `*p += 5`, the store of the loaded value plus 5 -/
  | store (tmp : Int)
  /-- l.91 `fmt.Printf("writer%d: wrote: %d\n", id, *p)` -/
  | print
  /-- l.92 `write()` -/
  | write
  /-- l.93 `fmt.Printf("writer%d: done writing, unlocks access to db\n", id)` -/
  | sayDoneWriting
  /-- l.94 `db.Unlock()` -/
  | dbUnlock
  /-- l.96 `mu.Lock()` -/
  | lock2
  /-- l.97 `pendingWriters--` -/
  | dec
  /-- l.98 `if pendingWriters == 0` -/
  | ifZero
  /-- l.99 `fmt.Printf("writer%d: last writer, notify readers\n", id)` -/
  | sayLast
  /-- l.100 `cond.Broadcast()` -/
  | broadcast
  /-- l.102 `mu.Unlock()` -/
  | unlock2
  /-- returned -/
  | done
  deriving DecidableEq, Repr

/-- A line written to standard output by the verbose variants: which `Printf`, the `id`,
and the value of `*p` where the line shows it. -/
inductive VLine where
  | readerWants (id : Nat)
  | readerWait (id : Nat)
  | readerNoPending (id : Nat)
  | readerFirst (id : Nat)
  | readerRead (id : Nat) (v : Int)
  | readerDone (id : Nat)
  | readerLast (id : Nat)
  | writerWants (id : Nat)
  | writerWaitDb (id : Nat)
  | writerGot (id : Nat)
  | writerWrote (id : Nat) (v : Int)
  | writerDone (id : Nat)
  | writerLast (id : Nat)
  deriving DecidableEq, Repr

/-- The globals of `rw.go` and the program counters of the goroutines when `main` starts
`verboseReader(i)` and `verboseWriter(j)`. -/
structure VState where
  value : Int
  readerCount : Int
  pendingWriters : Int
  mu : Bool
  db : Bool
  rs : List VRPc
  ws : List VWPc
  out : List VLine
  deriving DecidableEq, Repr

/-- What happens when a task of the verbose variants is scheduled. -/
inductive VOutcome where
  | next (s : VState)
  | blocked
  | fatal
  | returned
  | absent
  deriving DecidableEq, Repr

/-- Effect of `cond.Broadcast()` on a verbose reader. -/
def vwake : VRPc → VRPc
  | .blocked => .woken
  | pc => pc

/-- Verbose reader `i` moves to `pc`. -/
def VState.setR (s : VState) (i : Nat) (pc : VRPc) : VState :=
  { s with rs := s.rs.set i pc }

/-- Verbose writer `j` moves to `pc`. -/
def VState.setW (s : VState) (j : Nat) (pc : VWPc) : VState :=
  { s with ws := s.ws.set j pc }

/-- Verbose reader `i` prints `line` and moves to `pc`. -/
def VState.sayR (s : VState) (i : Nat) (line : VLine) (pc : VRPc) : VState :=
  { s with out := s.out ++ [line] }.setR i pc

/-- Verbose writer `j` prints `line` and moves to `pc`. -/
def VState.sayW (s : VState) (j : Nat) (line : VLine) (pc : VWPc) : VState :=
  { s with out := s.out ++ [line] }.setW j pc

/-- One statement of `verboseReader(i)`. -/
def vstepR (i : Nat) (s : VState) : VOutcome :=
  match s.rs[i]? with
  | none => .absent
  | some .lock1 =>
      if s.mu then .blocked else .next ({ s with mu := true }.setR i .sayWants)
  | some .sayWants => .next (s.sayR i (.readerWants i) .loop)
  | some .loop =>
      if s.pendingWriters > 0 then .next (s.setR i .sayWait)
      else .next (s.setR i .sayNoPending)
  | some .sayWait => .next (s.sayR i (.readerWait i) .wait)
  | some .wait =>
      if s.mu then .next ({ s with mu := false }.setR i .blocked) else .fatal
  | some .blocked => .blocked
  | some .woken =>
      if s.mu then .blocked else .next ({ s with mu := true }.setR i .loop)
  | some .sayNoPending => .next (s.sayR i (.readerNoPending i) .inc)
  | some .inc =>
      .next ({ s with readerCount := s.readerCount + 1 }.setR i .ifFirst)
  | some .ifFirst =>
      if s.readerCount = 1 then .next (s.setR i .sayFirst) else .next (s.setR i .unlock1)
  | some .sayFirst => .next (s.sayR i (.readerFirst i) .dbLock)
  | some .dbLock =>
      if s.db then .blocked else .next ({ s with db := true }.setR i .unlock1)
  | some .unlock1 =>
      if s.mu then .next ({ s with mu := false }.setR i .print) else .fatal
  | some .print => .next (s.sayR i (.readerRead i s.value) .read)
  | some .read => .next (s.setR i .lock2)
  | some .lock2 =>
      if s.mu then .blocked else .next ({ s with mu := true }.setR i .sayDone)
  | some .sayDone => .next (s.sayR i (.readerDone i) .dec)
  | some .dec =>
      .next ({ s with readerCount := s.readerCount - 1 }.setR i .ifLast)
  | some .ifLast =>
      if s.readerCount = 0 then .next (s.setR i .sayLast) else .next (s.setR i .unlock2)
  | some .sayLast => .next (s.sayR i (.readerLast i) .dbUnlock)
  | some .dbUnlock =>
      if s.db then .next ({ s with db := false }.setR i .unlock2) else .fatal
  | some .unlock2 =>
      if s.mu then .next ({ s with mu := false }.setR i .done) else .fatal
  | some .done => .returned

/-- One statement of `verboseWriter(j)`. -/
def vstepW (j : Nat) (s : VState) : VOutcome :=
  match s.ws[j]? with
  | none => .absent
  | some .lock1 =>
      if s.mu then .blocked else .next ({ s with mu := true }.setW j .inc)
  | some .inc =>
      .next ({ s with pendingWriters := s.pendingWriters + 1 }.setW j .sayWants)
  | some .sayWants => .next (s.sayW j (.writerWants j) .unlock1)
  | some .unlock1 =>
      if s.mu then .next ({ s with mu := false }.setW j .sayWaitDb) else .fatal
  | some .sayWaitDb => .next (s.sayW j (.writerWaitDb j) .dbLock)
  | some .dbLock =>
      if s.db then .blocked else .next ({ s with db := true }.setW j .sayGot)
  | some .sayGot => .next (s.sayW j (.writerGot j) .load)
  | some .load => .next (s.setW j (.store s.value))
  | some (.store tmp) => .next ({ s with value := tmp + 5 }.setW j .print)
  | some .print => .next (s.sayW j (.writerWrote j s.value) .write)
  | some .write => .next (s.setW j .sayDoneWriting)
  | some .sayDoneWriting => .next (s.sayW j (.writerDone j) .dbUnlock)
  | some .dbUnlock =>
      if s.db then .next ({ s with db := false }.setW j .lock2) else .fatal
  | some .lock2 =>
      if s.mu then .blocked else .next ({ s with mu := true }.setW j .dec)
  | some .dec =>
      .next ({ s with pendingWriters := s.pendingWriters - 1 }.setW j .ifZero)
  | some .ifZero =>
      if s.pendingWriters = 0 then .next (s.setW j .sayLast) else .next (s.setW j .unlock2)
  | some .sayLast => .next (s.sayW j (.writerLast j) .broadcast)
  | some .broadcast =>
      .next ({ s with rs := s.rs.map vwake }.setW j .unlock2)
  | some .unlock2 =>
      if s.mu then .next ({ s with mu := false }.setW j .done) else .fatal
  | some .done => .returned

/-- The scheduler picks task `t` of the verbose variants. -/
def vstep : Tid → VState → VOutcome
  | .r i => vstepR i
  | .w j => vstepW j

/-- The state at program start with `n` verbose readers and `m` verbose writers to run. -/
def vinit (n m : Nat) : VState :=
  { value := 0, readerCount := 0, pendingWriters := 0, mu := false, db := false,
    rs := List.replicate n .lock1, ws := List.replicate m .lock1, out := [] }

/-- Run a schedule of the verbose variants. -/
def vrun : List Tid → VState → Option VState
  | [], s => some s
  | t :: ts, s =>
      match vstep t s with
      | .next s' => vrun ts s'
      | _ => none

/-- The statement of `reader` a verbose reader is at, once the statements that only print
are erased: such a statement is mapped to the statement that follows it. -/
def VRPc.erase : VRPc → RPc
  | .lock1 => .lock1
  | .sayWants => .loop
  | .loop => .loop
  | .sayWait => .wait
  | .wait => .wait
  | .blocked => .blocked
  | .woken => .woken
  | .sayNoPending => .inc
  | .inc => .inc
  | .ifFirst => .ifFirst
  | .sayFirst => .dbLock
  | .dbLock => .dbLock
  | .unlock1 => .unlock1
  | .print => .print
  | .read => .read
  | .lock2 => .lock2
  | .sayDone => .dec
  | .dec => .dec
  | .ifLast => .ifLast
  | .sayLast => .dbUnlock
  | .dbUnlock => .dbUnlock
  | .unlock2 => .unlock2
  | .done => .done

/-- The statement of `writer` a verbose writer is at, once the statements that only print
are erased. -/
def VWPc.erase : VWPc → WPc
  | .lock1 => .lock1
  | .inc => .inc
  | .sayWants => .unlock1
  | .unlock1 => .unlock1
  | .sayWaitDb => .dbLock
  | .dbLock => .dbLock
  | .sayGot => .load
  | .load => .load
  | .store tmp => .store tmp
  | .print => .print
  | .write => .write
  | .sayDoneWriting => .dbUnlock
  | .dbUnlock => .dbUnlock
  | .lock2 => .lock2
  | .dec => .dec
  | .ifZero => .ifZero
  | .sayLast => .broadcast
  | .broadcast => .broadcast
  | .unlock2 => .unlock2
  | .done => .done

/-- The verbose reader is at a statement that only prints (it has no counterpart in
`reader`). -/
def VRPc.isSay : VRPc → Bool
  | .sayWants | .sayWait | .sayNoPending | .sayFirst | .sayDone | .sayLast => true
  | _ => false

/-- The verbose writer is at a statement that only prints (it has no counterpart in
`writer`). -/
def VWPc.isSay : VWPc → Bool
  | .sayWants | .sayWaitDb | .sayGot | .sayDoneWriting | .sayLast => true
  | _ => false

/-- The line of the minimal variant a verbose line corresponds to: the two lines that show
`*p` have one, the others are erased. -/
def VLine.erase : VLine → Option Line
  | .readerRead i v => some (.reader i v)
  | .writerWrote j v => some (.writer j v)
  | _ => none

/-- The state of the minimal variants that a state of the verbose variants corresponds to:
the same globals, the program counters and the output erased. -/
def VState.erase (s : VState) : State :=
  { value := s.value, readerCount := s.readerCount, pendingWriters := s.pendingWriters,
    mu := s.mu, db := s.db, rs := s.rs.map VRPc.erase, ws := s.ws.map VWPc.erase,
    out := s.out.filterMap VLine.erase }

/-- The outcome of the minimal variants that an outcome of the verbose variants corresponds
to. -/
def VOutcome.erase : VOutcome → Outcome
  | .next s => .next s.erase
  | .blocked => .blocked
  | .fatal => .fatal
  | .returned => .returned
  | .absent => .absent

/-- Task `t` of the verbose variants is at a statement that only prints. -/
def VState.saying (s : VState) (t : Tid) : Bool :=
  match t with
  | .r i =>
      match s.rs[i]? with
      | some pc => pc.isSay
      | none => false
  | .w j =>
      match s.ws[j]? with
      | some pc => pc.isSay
      | none => false

/-! ## Counting lemmas -/

theorem countP_move {α : Type} (p : α → Bool) (l : List α) (i : Nat) (old new : α)
    (h : l[i]? = some old) :
    (l.set i new).countP p + (p old).toNat = l.countP p + (p new).toNat ∧
      (p old).toNat ≤ l.countP p := by
  induction l generalizing i with
  | nil => simp at h
  | cons x l ih =>
    cases i with
    | zero =>
      simp at h
      subst h
      simp [List.countP_cons]
      cases p x <;> cases p new <;> simp
    | succ i =>
      simp at h
      have := ih i h
      simp [List.countP_cons]
      omega

theorem countP_set_eq {α : Type} (p : α → Bool) (l : List α) (i : Nat) (old new : α)
    (h : l[i]? = some old) :
    (l.set i new).countP p = l.countP p + (p new).toNat - (p old).toNat := by
  have := countP_move p l i old new h
  omega

theorem countP_pos_get {α : Type} (p : α → Bool) (l : List α) (h : 1 ≤ l.countP p) :
    ∃ (i : Nat) (a : α), l[i]? = some a ∧ p a = true := by
  have h2 : 0 < l.countP p := h
  rw [List.countP_pos_iff] at h2
  obtain ⟨a, ha, hp⟩ := h2
  obtain ⟨i, hi⟩ := List.mem_iff_getElem?.1 ha
  exact ⟨i, a, hi, hp⟩

/-- A reader at `old` is counted by every predicate that holds of `old`. -/
theorem lowerR (s : State) (i : Nat) (old : RPc) (h : s.rs[i]? = some old) :
    (RPc.holdsMu old).toNat ≤ s.rs.countP RPc.holdsMu ∧
    (RPc.admitted old).toNat ≤ s.rs.countP RPc.admitted ∧
    (RPc.entering old).toNat ≤ s.rs.countP RPc.entering ∧
    (RPc.isWait old).toNat ≤ s.rs.countP RPc.isWait ∧
    (RPc.isBlocked old).toNat ≤ s.rs.countP RPc.isBlocked ∧
    (RPc.isIfFirst old).toNat ≤ s.rs.countP RPc.isIfFirst ∧
    (RPc.isDbLock old).toNat ≤ s.rs.countP RPc.isDbLock ∧
    (RPc.isIfLast old).toNat ≤ s.rs.countP RPc.isIfLast ∧
    (RPc.isDbUnlock old).toNat ≤ s.rs.countP RPc.isDbUnlock ∧
    (RPc.isInc old).toNat ≤ s.rs.countP RPc.isInc ∧
    (RPc.calm old).toNat ≤ s.rs.countP RPc.calm :=
  ⟨(countP_move _ _ i old old h).2, (countP_move _ _ i old old h).2,
   (countP_move _ _ i old old h).2, (countP_move _ _ i old old h).2,
   (countP_move _ _ i old old h).2, (countP_move _ _ i old old h).2,
   (countP_move _ _ i old old h).2, (countP_move _ _ i old old h).2,
   (countP_move _ _ i old old h).2, (countP_move _ _ i old old h).2,
   (countP_move _ _ i old old h).2⟩

theorem statR (l : List RPc) :
    l.countP RPc.holdsMu = l.countP RPc.calm + l.countP RPc.isWait + l.countP RPc.isInc
      + l.countP RPc.isIfFirst + l.countP RPc.isDbLock + l.countP RPc.isIfLast
      + l.countP RPc.isDbUnlock ∧
    l.countP RPc.entering = l.countP RPc.isInc + l.countP RPc.isIfFirst
      + l.countP RPc.isDbLock := by
  induction l with
  | nil => simp
  | cons a l ih =>
    cases a <;>
    simp [List.countP_cons, RPc.entering, RPc.isWait, RPc.isIfLast, RPc.isDbUnlock,
      RPc.holdsMu, RPc.isIfFirst, RPc.isDbLock, RPc.isInc, RPc.calm] <;> omega

theorem statW (l : List WPc) (v : Int) :
    l.countP WPc.inWindow ≤ l.countP WPc.pending ∧
    l.countP WPc.isStore ≤ l.countP WPc.inWindow ∧
    l.countP WPc.announcing ≤ l.countP WPc.holdsMu ∧
    l.countP (WPc.loaded v) ≤ l.countP WPc.isStore ∧
    l.countP WPc.stored ≤ l.length := by
  induction l with
  | nil => simp
  | cons a l ih =>
    cases a <;>
    simp [List.countP_cons, WPc.inWindow, WPc.pending, WPc.isStore, WPc.announcing,
      WPc.holdsMu, WPc.stored, WPc.loaded] <;> (try split) <;> omega

theorem toNat_facts (b : Bool) :
    (b = true → b.toNat = 1) ∧ (¬ b = true → b.toNat = 0) ∧ b.toNat ≤ 1 := by
  cases b <;> simp


set_option maxHeartbeats 1000000 in
theorem Inv.reader_step {s s' : State} {i : Nat} (hI : Inv s) (h : stepR i s = .next s') :
    Inv s' := by
  have hs := statR s.rs
  have hw := statW s.ws s.value
  have fm := toNat_facts s.mu
  have fd := toNat_facts s.db
  obtain ⟨i1, i2, i3, i4, i5, i6, i7, i8, i9, i10, i11, i12, i13, i14⟩ := hI
  simp only [State.nR, State.nW] at *
  rcases hpc : s.rs[i]? with _ | pc
  · simp [stepR, hpc] at h
  · have B := lowerR s i _ hpc
    cases pc <;>
      simp only [stepR, hpc] at h <;> (try split at h) <;>
      simp only [Outcome.next.injEq, reduceCtorEq] at h <;> subst h <;>
      (first | have hm1 := fm.1 ‹s.mu = true› | have hm0 := fm.2.1 ‹¬ s.mu = true› | skip) <;>
      (first | have hd1 := fd.1 ‹s.db = true› | have hd0 := fd.2.1 ‹¬ s.db = true› | skip) <;>
      simp only [RPc.entering, RPc.isWait, RPc.isIfLast, RPc.isDbUnlock, RPc.admitted,
        RPc.isBlocked, RPc.holdsMu, RPc.isIfFirst, RPc.isDbLock, RPc.isInc, RPc.calm,
        Bool.toNat_true, Bool.toNat_false] at B <;>
      constructor <;>
      simp only [State.nR, State.nW, State.setR, countP_set_eq _ _ _ _ _ hpc,
        RPc.entering, RPc.isWait, RPc.isIfLast, RPc.isDbUnlock, RPc.admitted, RPc.isBlocked,
        RPc.holdsMu, RPc.isIfFirst, RPc.isDbLock, Bool.toNat_true, Bool.toNat_false,
        true_and, and_true, Nat.add_zero, Nat.sub_zero, Nat.add_sub_cancel] <;>
      first | assumption | omega

/-- A writer at `old` is counted by every predicate that holds of `old`. -/
theorem lowerW (s : State) (j : Nat) (old : WPc) (h : s.ws[j]? = some old) :
    (WPc.holdsMu old).toNat ≤ s.ws.countP WPc.holdsMu ∧
    (WPc.pending old).toNat ≤ s.ws.countP WPc.pending ∧
    (WPc.inWindow old).toNat ≤ s.ws.countP WPc.inWindow ∧
    (WPc.isStore old).toNat ≤ s.ws.countP WPc.isStore ∧
    (WPc.stored old).toNat ≤ s.ws.countP WPc.stored ∧
    (WPc.announcing old).toNat ≤ s.ws.countP WPc.announcing :=
  ⟨(countP_move _ _ j old old h).2, (countP_move _ _ j old old h).2,
   (countP_move _ _ j old old h).2, (countP_move _ _ j old old h).2,
   (countP_move _ _ j old old h).2, (countP_move _ _ j old old h).2⟩

/-- The value a writer has loaded is the current value when the writers between load and
store are exactly those that loaded the current value. -/
theorem tmp_eq (l : List WPc) (j : Nat) (t v : Int) (h : l[j]? = some (WPc.store t))
    (hc : l.countP (WPc.loaded v) = l.countP WPc.isStore) : t = v := by
  by_contra hne
  have m1 := (countP_move (WPc.loaded v) l j _ WPc.lock1 h).1
  have m2 := (countP_move WPc.isStore l j _ WPc.lock1 h).1
  have m3 := (statW (l.set j WPc.lock1) v).2.2.2.1
  have e : (t == v) = false := by simpa using hne
  simp only [WPc.isStore, WPc.loaded, e, Bool.toNat_true, Bool.toNat_false] at m1 m2
  omega

theorem countP_wake (l : List RPc) :
    (l.map wake).countP RPc.holdsMu = l.countP RPc.holdsMu ∧
    (l.map wake).countP RPc.admitted = l.countP RPc.admitted ∧
    (l.map wake).countP RPc.entering = l.countP RPc.entering ∧
    (l.map wake).countP RPc.isWait = l.countP RPc.isWait ∧
    (l.map wake).countP RPc.isBlocked = 0 ∧
    (l.map wake).countP RPc.isIfFirst = l.countP RPc.isIfFirst ∧
    (l.map wake).countP RPc.isDbLock = l.countP RPc.isDbLock ∧
    (l.map wake).countP RPc.isIfLast = l.countP RPc.isIfLast ∧
    (l.map wake).countP RPc.isDbUnlock = l.countP RPc.isDbUnlock := by
  induction l with
  | nil => simp
  | cons a l ih =>
    obtain ⟨h1, h2, h3, h4, h5, h6, h7, h8, h9⟩ := ih
    cases a <;>
    simp only [List.map_cons, List.countP_cons, wake, RPc.entering, RPc.isWait, RPc.isIfLast,
      RPc.isDbUnlock, RPc.holdsMu, RPc.isIfFirst, RPc.isDbLock, RPc.admitted, RPc.isBlocked,
      h1, h2, h3, h4, h5, h6, h7, h8, h9] <;> simp

set_option maxHeartbeats 1000000 in
theorem Inv.writer_step {s s' : State} {j : Nat} (hI : Inv s) (h : stepW j s = .next s') :
    Inv s' := by
  have hs := statR s.rs
  have hw := statW s.ws s.value
  have hw' := statW s'.ws s'.value
  have fm := toNat_facts s.mu
  have fd := toNat_facts s.db
  have wk := countP_wake s.rs
  obtain ⟨i1, i2, i3, i4, i5, i6, i7, i8, i9, i10, i11, i12, i13, i14⟩ := hI
  simp only [State.nR, State.nW] at *
  rcases hpc : s.ws[j]? with _ | pc
  · simp [stepW, hpc] at h
  · have B := lowerW s j _ hpc
    cases pc <;>
      simp only [stepW, hpc] at h <;> (try split at h) <;>
      simp only [Outcome.next.injEq, reduceCtorEq] at h <;> subst h <;>
      (first | have hm1 := fm.1 ‹s.mu = true› | have hm0 := fm.2.1 ‹¬ s.mu = true› | skip) <;>
      (first | (have ht := tmp_eq _ _ _ _ hpc i14; subst ht) | skip) <;>
      (first | have hd1 := fd.1 ‹s.db = true› | have hd0 := fd.2.1 ‹¬ s.db = true› | skip) <;>
      simp only [WPc.holdsMu, WPc.pending, WPc.inWindow, WPc.isStore, WPc.stored,
        WPc.announcing, Bool.toNat_true, Bool.toNat_false] at B <;>
      simp only [State.setW, countP_set_eq _ _ _ _ _ hpc,
        WPc.holdsMu, WPc.pending, WPc.inWindow, WPc.isStore, WPc.stored,
        WPc.announcing, WPc.loaded, beq_self_eq_true, Bool.toNat_true, Bool.toNat_false,
        Nat.add_zero, Nat.sub_zero, Nat.add_sub_cancel] at hw' <;>
      constructor <;>
      simp only [State.nR, State.nW, State.setW, countP_set_eq _ _ _ _ _ hpc,
        WPc.holdsMu, WPc.pending, WPc.inWindow, WPc.isStore, WPc.stored,
        WPc.announcing, WPc.loaded, beq_self_eq_true, Bool.toNat_true, Bool.toNat_false,
        true_and, and_true, wk, Nat.add_zero, Nat.sub_zero, Nat.add_sub_cancel] <;>
      first | assumption | omega

/-! ## Reachable states satisfy the invariant -/

theorem Inv.init (n m : Nat) : Inv (init n m) := by
  constructor <;>
    simp [RW.init, State.nR, State.nW, List.countP_replicate, RPc.holdsMu, WPc.holdsMu,
      RPc.admitted, WPc.pending, RPc.entering, RPc.isWait, WPc.inWindow, RPc.isDbUnlock,
      RPc.isIfLast, RPc.isDbLock, RPc.isIfFirst, RPc.isBlocked, WPc.announcing, WPc.stored,
      WPc.loaded, WPc.isStore]

theorem Inv.step {s s' : State} {t : Tid} (hI : Inv s) (h : step t s = .next s') : Inv s' := by
  cases t with
  | r i => exact hI.reader_step h
  | w j => exact hI.writer_step h

theorem length_step {s s' : State} {t : Tid} (h : step t s = .next s') :
    s'.rs.length = s.rs.length ∧ s'.ws.length = s.ws.length := by
  cases t with
  | r i =>
    simp only [step, stepR] at h
    split at h <;> (try split at h) <;>
      simp only [Outcome.next.injEq, reduceCtorEq] at h <;> subst h <;>
      simp [State.setR]
  | w j =>
    simp only [step, stepW] at h
    split at h <;> (try split at h) <;>
      simp only [Outcome.next.injEq, reduceCtorEq] at h <;> subst h <;>
      simp [State.setW]

theorem Reach.inv {n m : Nat} {s : State} (h : Reach n m s) :
    Inv s ∧ s.rs.length = n ∧ s.ws.length = m := by
  induction h with
  | init => exact ⟨Inv.init n m, by simp [RW.init], by simp [RW.init]⟩
  | step t _ hst ih =>
    have hl := length_step hst
    exact ⟨ih.1.step hst, by omega, by omega⟩

theorem Reach.of_run {n m : Nat} (sched : List Tid) {s s' : State} (h : Reach n m s)
    (hr : run sched s = some s') : Reach n m s' := by
  induction sched generalizing s with
  | nil => simp [run] at hr; subst hr; exact h
  | cons t ts ih =>
    simp only [run] at hr
    split at hr
    · rename_i s1 hs1
      exact ih (Reach.step t h hs1) hr
    · simp at hr

theorem reach_midWrite : Reach 2 2 midWrite :=
  Reach.of_run midWriteSched Reach.init (by decide)

theorem reach_demoFinal : Reach 5 3 demoFinal :=
  Reach.of_run demoSched Reach.init (by decide)

theorem reach_crowd22 : Reach 2 2 (crowd 2 2 2) :=
  Reach.of_run (solo (.r 0) 6 ++ solo (.r 1) 5) Reach.init (by decide)

/-! ## Mutual exclusion, counters, invariant I1 -/

theorem countP_zero_get {α : Type} (p : α → Bool) (l : List α) (i : Nat) (a : α)
    (h0 : l.countP p = 0) (h : l[i]? = some a) : p a = false := by
  have := (countP_move p l i a a h).2
  cases hp : p a
  · rfl
  · rw [hp, h0] at this
    simp at this

theorem countP_le_one_get {α : Type} (p : α → Bool) (l : List α) (j k : Nat) (a b : α)
    (h1 : l.countP p ≤ 1) (hj : l[j]? = some a) (hk : l[k]? = some b)
    (ha : p a = true) (hb : p b = true) : j = k := by
  induction l generalizing j k with
  | nil => simp at hj
  | cons x l ih =>
    cases j with
    | zero =>
      cases k with
      | zero => rfl
      | succ k =>
        simp at hj hk
        subst hj
        have := (countP_move p l k b b hk).2
        rw [hb, Bool.toNat_true] at this
        rw [List.countP_cons, if_pos ha] at h1
        omega
    | succ j =>
      cases k with
      | zero =>
        simp at hj hk
        subst hk
        have := (countP_move p l j a a hj).2
        rw [ha, Bool.toNat_true] at this
        rw [List.countP_cons, if_pos hb] at h1
        omega
      | succ k =>
        simp at hj hk
        have h1' : l.countP p ≤ 1 := by
          have := List.countP_cons p x l
          split at this <;> omega
        rw [ih j k h1' hj hk]

theorem countP_get_pos {α : Type} (p : α → Bool) (l : List α) (i : Nat) (a : α)
    (h : l[i]? = some a) (ha : p a = true) : 1 ≤ l.countP p := by
  have := (countP_move p l i a a h).2
  rw [ha, Bool.toNat_true] at this
  exact this

/-- C1. Mutual exclusion: in every reachable state at most one writer is between its
`db.Lock()` and its `db.Unlock()`; while a writer is there no reader is between its
`readerCount++` and its `readerCount--`; and a writer's `db.Lock()` can only succeed in a
state where `readerCount = 0` and no reader is inside its admitted window. -/
theorem mutual_exclusion (n m : Nat) (s : State) (h : Reach n m s) :
    (∀ (j k : Nat) (a b : WPc), s.ws[j]? = some a → s.ws[k]? = some b →
      a.inWindow = true → b.inWindow = true → j = k) ∧
    (∀ (j i : Nat) (a : WPc) (b : RPc), s.ws[j]? = some a → s.rs[i]? = some b →
      a.inWindow = true → b.admitted = false) ∧
    (∀ (j : Nat) (s' : State), s.ws[j]? = some WPc.dbLock → stepW j s = .next s' →
      s.readerCount = 0 ∧ ∀ (i : Nat) (b : RPc), s.rs[i]? = some b → b.admitted = false) := by
  obtain ⟨⟨i1, i2, i3, i4, i5, i6, i7, i8, i9, i10, i11, i12, i13, i14⟩, -, -⟩ := h.inv
  have hs := statR s.rs
  have hw := statW s.ws s.value
  have fm := toNat_facts s.mu
  have fd := toNat_facts s.db
  simp only [State.nR, State.nW] at *
  refine ⟨?_, ?_, ?_⟩
  · intro j k a b hj hk ha hb
    exact countP_le_one_get _ _ j k a b i6 hj hk ha hb
  · intro j i a b hj hi ha
    have := countP_get_pos _ _ j a hj ha
    apply countP_zero_get _ _ i b _ hi
    omega
  · intro j s' hj hst
    have hd : s.db.toNat = 0 := by
      simp only [stepW, hj] at hst
      split at hst
      · simp at hst
      · exact fd.2.1 ‹_›
    have := countP_get_pos WPc.pending _ j _ hj rfl
    have h0 : s.rs.countP RPc.admitted = 0 := by omega
    exact ⟨by omega, fun i b hi => countP_zero_get _ _ i b h0 hi⟩

theorem mutual_exclusion_witness :
    Reach 2 2 midWrite ∧ RPc.admitted RPc.blocked = false :=
  ⟨reach_midWrite,
   (mutual_exclusion 2 2 midWrite reach_midWrite).2.1 0 0 (WPc.store 0) RPc.blocked
     (by decide) (by decide) (by decide)⟩

/-- C5. Counter consistency: in every reachable state `readerCount` is non-negative and is
the number of readers that have executed `readerCount++` and not yet `readerCount--`, and
`pendingWriters` is non-negative and is the number of writers that have executed
`pendingWriters++` and not yet `pendingWriters--`. -/
theorem counter_consistency (n m : Nat) (s : State) (h : Reach n m s) :
    0 ≤ s.readerCount ∧ s.readerCount = s.nR RPc.admitted ∧
    0 ≤ s.pendingWriters ∧ s.pendingWriters = s.nW WPc.pending := by
  obtain ⟨hI, -, -⟩ := h.inv
  have h2 := hI.rc
  have h3 := hI.pw
  exact ⟨by omega, h2, by omega, h3⟩

theorem counter_consistency_witness :
    Reach 2 2 midWrite ∧ midWrite.readerCount = midWrite.nR RPc.admitted ∧
      midWrite.pendingWriters = midWrite.nW WPc.pending ∧ midWrite.nW WPc.pending = 2 :=
  ⟨reach_midWrite, (counter_consistency 2 2 midWrite reach_midWrite).2.1,
   (counter_consistency 2 2 midWrite reach_midWrite).2.2.2, by decide⟩

/-- C6. Invariant I1: in every reachable state in which `mu` is unlocked, `db` is locked if
and only if `readerCount > 0` or some writer is between its `db.Lock()` and its
`db.Unlock()`, and these two conditions do not hold together. -/
theorem invariant_I1 (n m : Nat) (s : State) (h : Reach n m s) (hmu : s.mu = false) :
    (s.db = true ↔
      (0 < s.readerCount ∨ ∃ (j : Nat) (pc : WPc), s.ws[j]? = some pc ∧ pc.inWindow = true)) ∧
    ¬ (0 < s.readerCount ∧ ∃ (j : Nat) (pc : WPc), s.ws[j]? = some pc ∧ pc.inWindow = true) := by
  obtain ⟨⟨i1, i2, i3, i4, i5, i6, i7, i8, i9, i10, i11, i12, i13, i14⟩, -, -⟩ := h.inv
  have hs := statR s.rs
  have hw := statW s.ws s.value
  have fm := toNat_facts s.mu
  have fd := toNat_facts s.db
  simp only [State.nR, State.nW] at *
  have hm0 : s.mu.toNat = 0 := fm.2.1 (by simp [hmu])
  have key : (0 < s.readerCount → s.db.toNat = 1 ∧ s.ws.countP WPc.inWindow = 0) ∧
      (s.readerCount ≤ 0 → s.db.toNat = s.ws.countP WPc.inWindow) := by
    constructor <;> intro <;> omega
  have ex : (∃ (j : Nat) (pc : WPc), s.ws[j]? = some pc ∧ pc.inWindow = true) ↔
      1 ≤ s.ws.countP WPc.inWindow := by
    constructor
    · rintro ⟨j, pc, hj, hp⟩
      exact countP_get_pos _ _ j pc hj hp
    · intro h1
      exact countP_pos_get _ _ h1
  rw [ex]
  have hdb : s.db = true ↔ s.db.toNat = 1 := by cases s.db <;> simp
  rw [hdb]
  constructor
  · constructor
    · intro hd
      by_cases hr : 0 < s.readerCount
      · exact Or.inl hr
      · right; omega
    · rintro (hr | hw1) <;> omega
  · rintro ⟨hr, hw1⟩
    omega

theorem invariant_I1_witness :
    (Reach 2 2 (crowd 2 2 2) ∧ (crowd 2 2 2).mu = false) ∧
      ((crowd 2 2 2).db = true ↔ (0 < (crowd 2 2 2).readerCount ∨
        ∃ (j : Nat) (pc : WPc), (crowd 2 2 2).ws[j]? = some pc ∧ pc.inWindow = true)) :=
  ⟨⟨reach_crowd22, by decide⟩, (invariant_I1 2 2 (crowd 2 2 2) reach_crowd22 (by decide)).1⟩

/-! ## Machine integers -/

theorem statStore (l : List WPc) :
    l.countP WPc.stored + l.countP WPc.isStore ≤ l.length ∧
    l.countP WPc.pending ≤ l.length := by
  induction l with
  | nil => simp
  | cons a l ih =>
    cases a <;> simp [List.countP_cons, WPc.stored, WPc.isStore, WPc.pending] <;> omega

/-- The integers of a reachable state stay far inside the range of Go's 64-bit `int` for
any number of goroutines a machine can hold: the counters lie between 0 and the number of
readers, respectively writers, the value between 0 and `5 * m`, and the sum `tmp + 5` a
writer is about to store is at most `5 * m`. The unbounded `Int` of the model therefore
agrees with the machine integers. -/
theorem Reach.int_range {n m : Nat} {s : State} (h : Reach n m s) :
    0 ≤ s.readerCount ∧ s.readerCount ≤ n ∧ 0 ≤ s.pendingWriters ∧ s.pendingWriters ≤ m ∧
    0 ≤ s.value ∧ s.value ≤ 5 * (m : Int) ∧
    ∀ (j : Nat) (t : Int), s.ws[j]? = some (WPc.store t) →
      t = s.value ∧ t + 5 ≤ 5 * (m : Int) := by
  obtain ⟨hI, hn, hm⟩ := h.inv
  have h2 := hI.rc
  have h3 := hI.pw
  have h13 := hI.val
  have h14 := hI.tmp
  have hst := statStore s.ws
  have hr : s.rs.countP RPc.admitted ≤ s.rs.length := List.countP_le_length _
  simp only [State.nR, State.nW] at *
  refine ⟨by omega, by omega, by omega, by omega, by omega, by omega, ?_⟩
  intro j t hj
  have ht := tmp_eq _ _ _ _ hj h14
  have := countP_get_pos WPc.isStore _ j _ hj rfl
  exact ⟨ht, by omega⟩

/-! ## Final value and reader observations -/

/-- C3. Final value: in every terminal state of an execution of `n` readers and `m` writers
(every task has returned) the shared value is `0 + 5 * m`, with `*p += 5` executed as a load
followed by a store; with the 3 writers of `main` it is 15. -/
theorem final_value (n m : Nat) (s : State) (h : Reach n m s) (hd : s.allDone) :
    s.value = 5 * (m : Int) ∧ (m = 3 → s.value = 15) := by
  obtain ⟨hI, -, hm⟩ := h.inv
  have hv := hI.val
  have hall : s.ws.countP WPc.stored = s.ws.length := by
    rw [List.countP_eq_length]
    intro pc hpc
    rw [hd.2 pc hpc]
    rfl
  simp only [State.nW] at hv
  rw [hall, hm] at hv
  refine ⟨hv, ?_⟩
  intro h3
  subst h3
  simpa using hv

theorem final_value_witness :
    (Reach 5 3 demoFinal ∧ demoFinal.allDone) ∧ demoFinal.value = 15 :=
  ⟨⟨reach_demoFinal, by decide⟩,
   (final_value 5 3 demoFinal reach_demoFinal (by decide)).2 rfl⟩

theorem out_step {s s' : State} {t : Tid} (h : step t s = .next s') :
    s'.out = s.out ∨
    (∃ i : Nat, s.rs[i]? = some RPc.print ∧ s'.out = s.out ++ [Line.reader i s.value]) ∨
    (∃ j : Nat, s.ws[j]? = some WPc.print ∧ s'.out = s.out ++ [Line.writer j s.value]) := by
  cases t with
  | r i =>
    simp only [step] at h
    rcases hpc : s.rs[i]? with _ | pc
    · simp [stepR, hpc] at h
    · cases pc <;> simp only [stepR, hpc] at h <;> (try split at h) <;>
        simp only [Outcome.next.injEq, reduceCtorEq] at h <;> subst h <;>
        simp [State.setR]
      exact hpc
  | w j =>
    simp only [step] at h
    rcases hpc : s.ws[j]? with _ | pc
    · simp [stepW, hpc] at h
    · cases pc <;> simp only [stepW, hpc] at h <;> (try split at h) <;>
        simp only [Outcome.next.injEq, reduceCtorEq] at h <;> subst h <;>
        simp [State.setW]
      exact hpc

theorem Reach.out_ok {n m : Nat} {s : State} (h : Reach n m s) :
    ∀ line ∈ s.out, Line.ok m line := by
  induction h with
  | init => simp [RW.init]
  | step t hr hst ih =>
    rename_i s0 s1
    obtain ⟨hI, -, hm⟩ := hr.inv
    have hv := hI.val
    have hw := statW s0.ws s0.value
    simp only [State.nW] at hv
    rcases out_step hst with h0 | ⟨i, hi, h1⟩ | ⟨j, hj, h1⟩
    · rw [h0]; exact ih
    · rw [h1]
      intro line hl
      rcases List.mem_append.1 hl with hl | hl
      · exact ih line hl
      · simp at hl
        subst hl
        exact ⟨s0.ws.countP WPc.stored, by omega, hv⟩
    · rw [h1]
      intro line hl
      rcases List.mem_append.1 hl with hl | hl
      · exact ih line hl
      · simp at hl
        subst hl
        have := countP_get_pos WPc.stored _ j _ hj rfl
        exact ⟨s0.ws.countP WPc.stored, this, by omega, hv⟩

/-- C4. Reader observations: when a reader executes its read of `*p` (l.122) in a reachable
state, the value it prints is `5 * k`, where `k` is the number of writers that have completed
`*p += 5`, `k` is at most the number `m` of writers, and no writer is inside its admitted
window, so none is between the load and the store of its update; every line a reader has
printed shows one of `0, 5, ..., 5 * m`. -/
theorem reader_observation (n m : Nat) (s : State) (h : Reach n m s) :
    (∀ i : Nat, s.rs[i]? = some RPc.print →
      stepR i s = .next
        ({ s with out := s.out ++ [Line.reader i (5 * (s.nW WPc.stored : Int))] }.setR i
          RPc.read) ∧
      s.nW WPc.stored ≤ m ∧
      ∀ (j : Nat) (pc : WPc), s.ws[j]? = some pc → pc.inWindow = false) ∧
    (∀ line ∈ s.out, Line.ok m line) := by
  refine ⟨?_, h.out_ok⟩
  intro i hi
  obtain ⟨⟨i1, i2, i3, i4, i5, i6, i7, i8, i9, i10, i11, i12, i13, i14⟩, -, hm⟩ := h.inv
  have hs := statR s.rs
  have hw := statW s.ws s.value
  have fm := toNat_facts s.mu
  have fd := toNat_facts s.db
  have ha := countP_get_pos RPc.admitted _ i _ hi rfl
  simp only [State.nR, State.nW] at *
  refine ⟨?_, by omega, ?_⟩
  · simp only [stepR, hi, i13]
  · intro j pc hj
    apply countP_zero_get _ _ j pc _ hj
    omega

theorem reader_observation_witness :
    Reach 5 3 demoFinal ∧ Line.ok 3 (Line.reader 1 5) :=
  ⟨reach_demoFinal,
   (reader_observation 5 3 demoFinal reach_demoFinal).2 (Line.reader 1 5) (by decide)⟩

/-! ## Writer priority -/

theorem get_set_self {α : Type} (l : List α) (i : Nat) (old x : α) (h : l[i]? = some old) :
    (l.set i x)[i]? = some x := by
  induction l generalizing i with
  | nil => simp at h
  | cons a l ih =>
    cases i with
    | zero => simp
    | succ i => simp at h; simpa using ih i h

theorem get_set_ne {α : Type} (l : List α) (i k : Nat) (x : α) (h : i ≠ k) :
    (l.set i x)[k]? = l[k]? := by
  induction l generalizing i k with
  | nil => simp
  | cons a l ih =>
    cases i with
    | zero =>
      cases k with
      | zero => exact absurd rfl h
      | succ k => simp
    | succ i =>
      cases k with
      | zero => simp
      | succ k => simpa using ih i k (by omega)

/-- A step of a reader leaves the program counters of the writers alone. -/
theorem stepR_ws {s s' : State} {i : Nat} (h : stepR i s = .next s') : s'.ws = s.ws := by
  simp only [stepR] at h
  split at h <;> (try split at h) <;>
    simp only [Outcome.next.injEq, reduceCtorEq] at h <;> subst h <;> simp [State.setR]

/-- A writer never moves backwards in its program. -/
theorem wrank_step {s s' : State} {t : Tid} (h : step t s = .next s') (j : Nat) (pc : WPc)
    (hj : s.ws[j]? = some pc) :
    ∃ pc', s'.ws[j]? = some pc' ∧ WPc.rank 0 pc' ≤ WPc.rank 0 pc := by
  cases t with
  | r i =>
    rw [stepR_ws h]
    exact ⟨pc, hj, le_refl _⟩
  | w k =>
    simp only [step] at h
    by_cases hk : k = j
    · subst hk
      cases pc <;> simp only [stepW, hj] at h <;> (try split at h) <;>
        simp only [Outcome.next.injEq, reduceCtorEq] at h <;> subst h <;>
        simp only [State.setW, get_set_self _ _ _ _ hj] <;>
        exact ⟨_, rfl, by simp [WPc.rank]⟩
    · refine ⟨pc, ?_, le_refl _⟩
      rcases hpc : s.ws[k]? with _ | pck
      · simp [stepW, hpc] at h
      · cases pck <;> simp only [stepW, hpc] at h <;> (try split at h) <;>
          simp only [Outcome.next.injEq, reduceCtorEq] at h <;> subst h <;>
          simp only [State.setW, get_set_ne _ _ _ _ hk, hj]

theorem wrank_steps {s s' : State} (h : Steps s s') (j : Nat) (pc : WPc)
    (hj : s.ws[j]? = some pc) :
    ∃ pc', s'.ws[j]? = some pc' ∧ WPc.rank 0 pc' ≤ WPc.rank 0 pc := by
  induction h with
  | refl => exact ⟨pc, hj, le_refl _⟩
  | tail t _ hst ih =>
    obtain ⟨pc1, h1, hle1⟩ := ih
    obtain ⟨pc2, h2, hle2⟩ := wrank_step hst j pc1 h1
    exact ⟨pc2, h2, le_trans hle2 hle1⟩

theorem Reach.steps {n m : Nat} {s s' : State} (h : Reach n m s) (hs : Steps s s') :
    Reach n m s' := by
  induction hs with
  | refl => exact h
  | tail t _ hst ih => exact Reach.step t ih hst

theorem Steps.of_sched (sched : List Tid) {s s' : State} (hr : run sched s = some s') :
    Steps s s' := by
  have gen : ∀ (sched : List Tid) (s0 s1 s2 : State), Steps s0 s1 → run sched s1 = some s2 →
      Steps s0 s2 := by
    intro sched
    induction sched with
    | nil => intro s0 s1 s2 h01 hr; simp [run] at hr; subst hr; exact h01
    | cons t ts ih =>
      intro s0 s1 s2 h01 hr
      simp only [run] at hr
      split at hr
      · rename_i s3 hs3
        exact ih s0 s3 s2 (Steps.tail t h01 hs3) hr
      · simp at hr
  exact gen sched s s s' (Steps.refl s) hr

theorem rank_of_pending (a : WPc) (hp : a.pending = true) : WPc.rank 0 a ≤ 12 := by
  cases a <;> simp [WPc.pending, WPc.rank] at *

theorem admitted_of_rank (b : WPc) (hnp : b.pending = false) (hle : WPc.rank 0 b ≤ 12) :
    b.wasAdmitted = true := by
  cases b <;> simp [WPc.pending, WPc.rank, WPc.wasAdmitted] at *

/-- C2. Writer priority: no reader executes `readerCount++` in a reachable state where
`pendingWriters > 0`, whichever way it left the wait loop; and if reader `i` is about to
start its entry protocol (its first `mu.Lock()`) in a reachable state in which writer `j` has
executed `pendingWriters++` and not yet `pendingWriters--`, then in every later state in
which reader `i` is about to execute `readerCount++`, writer `j` is past its `db.Lock()`
(indeed past its `pendingWriters--`): the writer was admitted before the reader. -/
theorem writer_priority (n m : Nat) (s : State) (h : Reach n m s) :
    (∀ i : Nat, s.rs[i]? = some RPc.inc → s.pendingWriters = 0) ∧
    (∀ (i j : Nat) (pcw : WPc) (s2 : State),
      s.rs[i]? = some RPc.lock1 → s.ws[j]? = some pcw → pcw.pending = true →
      Steps s s2 → s2.rs[i]? = some RPc.inc →
      ∃ pcw', s2.ws[j]? = some pcw' ∧ pcw'.wasAdmitted = true ∧ pcw'.pending = false) := by
  have key : ∀ s : State, Reach n m s → ∀ i : Nat, s.rs[i]? = some RPc.inc →
      s.pendingWriters = 0 := by
    intro s h i hi
    obtain ⟨hI, -, -⟩ := h.inv
    have := countP_get_pos RPc.entering _ i _ hi rfl
    exact hI.guard this
  refine ⟨key s h, ?_⟩
  intro i j pcw s2 _ hj hp hsteps hi2
  obtain ⟨pcw', hj2, hle⟩ := wrank_steps hsteps j pcw hj
  have h2 := h.steps hsteps
  have hpw := key s2 h2 i hi2
  obtain ⟨hI2, -, -⟩ := h2.inv
  have h3 := hI2.pw
  simp only [State.nW] at h3
  have hnp : pcw'.pending = false := by
    apply countP_zero_get _ _ j pcw' _ hj2
    omega
  refine ⟨pcw', hj2, ?_, hnp⟩
  exact admitted_of_rank pcw' hnp (le_trans hle (rank_of_pending pcw hp))

theorem writer_priority_witness :
    Reach 1 1 ((run (solo (.w 0) 3) (init 1 1)).getD (init 1 1)) ∧
      ∃ pcw', ([WPc.done] : List WPc)[0]? = some pcw' ∧ pcw'.wasAdmitted = true ∧
        pcw'.pending = false :=
  ⟨Reach.of_run (solo (.w 0) 3) Reach.init (by decide),
   (writer_priority 1 1 ((run (solo (.w 0) 3) (init 1 1)).getD (init 1 1))
      (Reach.of_run (solo (.w 0) 3) Reach.init (by decide))).2 0 0 WPc.dbLock
      { value := 5, readerCount := 0, pendingWriters := 0, mu := true, db := false,
        rs := [.inc], ws := [.done], out := [.writer 0 5] }
      (by decide) (by decide) (by decide)
      (Steps.of_sched (solo (.w 0) 11 ++ solo (.r 0) 2) (by decide)) (by decide)⟩

/-! ## Termination measure -/

theorem sum_map_set {α : Type} (f : α → Nat) (l : List α) (i : Nat) (old new : α)
    (h : l[i]? = some old) :
    ((l.set i new).map f).sum + f old = (l.map f).sum + f new ∧ f old ≤ (l.map f).sum := by
  induction l generalizing i with
  | nil => simp at h
  | cons x l ih =>
    cases i with
    | zero =>
      simp at h
      subst h
      simp
      omega
    | succ i =>
      simp at h
      have := ih i h
      simp only [List.set_cons_succ, List.map_cons, List.sum_cons]
      omega

theorem sum_set_eq {α : Type} (f : α → Nat) (l : List α) (i : Nat) (old new : α)
    (h : l[i]? = some old) :
    ((l.set i new).map f).sum = (l.map f).sum + f new - f old := by
  have := sum_map_set f l i old new h
  omega

theorem sum_wake (l : List RPc) :
    ((l.map wake).map RPc.rank).sum ≤ (l.map RPc.rank).sum + 3 * l.length := by
  induction l with
  | nil => simp
  | cons a l ih =>
    cases a <;> simp [wake, RPc.rank] <;> simp at ih <;> omega

/-- Every step lowers the termination measure. -/
theorem measure_step {s s' : State} {t : Tid} (h : step t s = .next s') :
    s'.measure < s.measure := by
  cases t with
  | r i =>
    simp only [step] at h
    rcases hpc : s.rs[i]? with _ | pc
    · simp [stepR, hpc] at h
    · have hl := (sum_map_set RPc.rank s.rs i pc pc hpc).2
      cases pc <;> simp only [stepR, hpc] at h <;> (try split at h) <;>
        simp only [Outcome.next.injEq, reduceCtorEq] at h <;> subst h <;>
        simp only [RPc.rank] at hl <;>
        simp only [State.measure, State.setR, List.length_set, sum_set_eq _ _ _ _ _ hpc,
          RPc.rank] <;>
        omega
  | w j =>
    simp only [step] at h
    have hwk := sum_wake s.rs
    rcases hpc : s.ws[j]? with _ | pc
    · simp [stepW, hpc] at h
    · have hl := (sum_map_set (WPc.rank s.rs.length) s.ws j pc pc hpc).2
      cases pc <;> simp only [stepW, hpc] at h <;> (try split at h) <;>
        simp only [Outcome.next.injEq, reduceCtorEq] at h <;> subst h <;>
        simp only [WPc.rank] at hl <;>
        simp only [State.measure, State.setW, List.length_set, List.length_map,
          sum_set_eq _ _ _ _ _ hpc, WPc.rank] <;>
        omega

theorem measure_init (n m : Nat) : (init n m).measure = bound n m := by
  simp [State.measure, RW.init, bound, RPc.rank, WPc.rank, List.map_replicate,
    List.sum_replicate]
  ring

theorem run_measure (sched : List Tid) (s s' : State) (h : run sched s = some s') :
    sched.length + s'.measure ≤ s.measure := by
  induction sched generalizing s with
  | nil => simp [run] at h; subst h; simp
  | cons t ts ih =>
    simp only [run] at h
    split at h
    · rename_i s1 hs1
      have := ih s1 h
      have := measure_step hs1
      simp only [List.length_cons]
      omega
    · simp at h

/-! ## Deadlock freedom -/

/-- A reader can take a step exactly when its statement is enabled. -/
theorem stepR_enabled (s : State) (i : Nat) (pc : RPc) (h : s.rs[i]? = some pc) :
    (pc.enabled s.mu s.db = true → ∃ s', stepR i s = .next s') ∧
    (stepR i s = .fatal →
      (pc.holdsMu = true ∧ s.mu = false) ∨ (pc.isDbUnlock = true ∧ s.db = false)) := by
  cases pc <;> simp only [stepR, h, RPc.enabled, RPc.holdsMu, RPc.isDbUnlock] <;>
    cases s.mu <;> cases s.db <;> (try simp) <;> (try (split_ifs <;> simp))

/-- A writer can take a step exactly when its statement is enabled. -/
theorem stepW_enabled (s : State) (j : Nat) (pc : WPc) (h : s.ws[j]? = some pc) :
    (pc.enabled s.mu s.db = true → ∃ s', stepW j s = .next s') ∧
    (stepW j s = .fatal →
      (pc.holdsMu = true ∧ s.mu = false) ∨ (pc.inWindow = true ∧ s.db = false)) := by
  cases pc <;> simp only [stepW, h, WPc.enabled, WPc.holdsMu, WPc.inWindow] <;>
    cases s.mu <;> cases s.db <;> (try simp) <;> (try (split_ifs <;> simp))

theorem statE_R (mu db : Bool) (l : List RPc) :
    (mu = true → db = true →
      l.countP RPc.holdsMu ≤ l.countP (RPc.enabled mu db) + l.countP RPc.isDbLock) ∧
    (mu = true → db = false →
      l.countP RPc.holdsMu ≤ l.countP (RPc.enabled mu db) + l.countP RPc.isDbUnlock) ∧
    (mu = false →
      l.length ≤ l.countP (RPc.enabled mu db) + l.countP RPc.holdsMu
        + l.countP RPc.isBlocked + l.countP RPc.isDone ∧
      l.countP RPc.admitted ≤ l.countP RPc.holdsMu + l.countP (RPc.enabled mu db)) := by
  cases mu <;> cases db <;>
    (induction l with
     | nil => simp
     | cons a l ih =>
       cases a <;>
       simp [List.countP_cons, RPc.enabled, RPc.holdsMu, RPc.isDbLock, RPc.isDbUnlock,
         RPc.isBlocked, RPc.isDone, RPc.admitted] at ih ⊢ <;> omega)

theorem statE_W (mu db : Bool) (l : List WPc) :
    (mu = true → l.countP WPc.holdsMu ≤ l.countP (WPc.enabled mu db)) ∧
    (mu = false → db = true → l.countP WPc.inWindow ≤ l.countP (WPc.enabled mu db)) ∧
    (mu = false → db = false →
      l.length ≤ l.countP (WPc.enabled mu db) + l.countP WPc.holdsMu
        + l.countP WPc.isDone + l.countP WPc.inWindow) ∧
    l.countP WPc.pending + l.countP WPc.isDone ≤ l.length := by
  cases mu <;> cases db <;>
    (induction l with
     | nil => simp
     | cons a l ih =>
       cases a <;>
       simp [List.countP_cons, WPc.enabled, WPc.holdsMu, WPc.inWindow, WPc.isDone,
         WPc.pending] at ih ⊢ <;> omega)

theorem isDone_all_R (l : List RPc) (h : l.countP RPc.isDone = l.length) :
    ∀ pc ∈ l, pc = RPc.done := by
  rw [List.countP_eq_length] at h
  intro pc hpc
  have := h pc hpc
  cases pc <;> simp [RPc.isDone] at this ⊢

theorem isDone_all_W (l : List WPc) (h : l.countP WPc.isDone = l.length) :
    ∀ pc ∈ l, pc = WPc.done := by
  rw [List.countP_eq_length] at h
  intro pc hpc
  have := h pc hpc
  cases pc <;> simp [WPc.isDone] at this ⊢

/-- Deadlock freedom: a reachable state in which no task can take a step is terminal. -/
theorem Reach.stuck_done {n m : Nat} {s : State} (h : Reach n m s)
    (hstuck : ∀ (t : Tid) (s' : State), RW.step t s ≠ .next s') : s.allDone := by
  obtain ⟨⟨i1, i2, i3, i4, i5, i6, i7, i8, i9, i10, i11, i12, i13, i14⟩, -, -⟩ := h.inv
  have hs := statR s.rs
  have hw := statW s.ws s.value
  have hER : s.rs.countP (RPc.enabled s.mu s.db) = 0 := by
    by_contra hne
    obtain ⟨i, pc, hi, hp⟩ := countP_pos_get _ _ (Nat.one_le_iff_ne_zero.2 hne)
    obtain ⟨s', hs'⟩ := (stepR_enabled s i pc hi).1 hp
    exact hstuck (.r i) s' hs'
  have hEW : s.ws.countP (WPc.enabled s.mu s.db) = 0 := by
    by_contra hne
    obtain ⟨j, pc, hj, hp⟩ := countP_pos_get _ _ (Nat.one_le_iff_ne_zero.2 hne)
    obtain ⟨s', hs'⟩ := (stepW_enabled s j pc hj).1 hp
    exact hstuck (.w j) s' hs'
  have eR := statE_R s.mu s.db s.rs
  have eW := statE_W s.mu s.db s.ws
  have lR : s.rs.countP RPc.isDone ≤ s.rs.length := List.countP_le_length _
  have lW : s.ws.countP WPc.isDone ≤ s.ws.length := List.countP_le_length _
  simp only [State.nR, State.nW] at *
  have fm := toNat_facts s.mu
  have fd := toNat_facts s.db
  have c := eW.2.2.2
  have both : s.rs.countP RPc.isDone = s.rs.length ∧ s.ws.countP WPc.isDone = s.ws.length := by
    rcases Bool.eq_false_or_eq_true s.mu with hm | hm <;>
      rcases Bool.eq_false_or_eq_true s.db with hd | hd
    · have a := eR.1 hm hd
      have b := eW.1 hm
      have := fm.1 hm
      have := fd.1 hd
      omega
    · have a := eR.2.1 hm hd
      have b := eW.1 hm
      have := fm.1 hm
      have := fd.2.1 (by simp [hd])
      omega
    · have a := eR.2.2 hm
      have b := eW.2.1 hm hd
      have := fm.2.1 (by simp [hm])
      have := fd.1 hd
      omega
    · have a := eR.2.2 hm
      have b := eW.2.2.1 hm hd
      have := fm.2.1 (by simp [hm])
      have := fd.2.1 (by simp [hd])
      omega
  exact ⟨isDone_all_R _ both.1, isDone_all_W _ both.2⟩

/-- No step of a reachable state is Go's fatal "unlock of unlocked mutex". -/
theorem Reach.no_fatal {n m : Nat} {s : State} (h : Reach n m s) (t : Tid) :
    RW.step t s ≠ .fatal := by
  obtain ⟨⟨i1, i2, i3, i4, i5, i6, i7, i8, i9, i10, i11, i12, i13, i14⟩, -, -⟩ := h.inv
  have hs := statR s.rs
  have hw := statW s.ws s.value
  have fm := toNat_facts s.mu
  have fd := toNat_facts s.db
  simp only [State.nR, State.nW] at *
  intro hf
  cases t with
  | r i =>
    simp only [RW.step] at hf
    rcases hpc : s.rs[i]? with _ | pc
    · simp [stepR, hpc] at hf
    · rcases (stepR_enabled s i pc hpc).2 hf with ⟨hp, hm⟩ | ⟨hp, hd⟩
      · have := countP_get_pos _ _ i pc hpc hp
        have := fm.2.1 (by simp [hm])
        omega
      · have := countP_get_pos _ _ i pc hpc hp
        have := fd.2.1 (by simp [hd])
        omega
  | w j =>
    simp only [RW.step] at hf
    rcases hpc : s.ws[j]? with _ | pc
    · simp [stepW, hpc] at hf
    · rcases (stepW_enabled s j pc hpc).2 hf with ⟨hp, hm⟩ | ⟨hp, hd⟩
      · have := countP_get_pos _ _ j pc hpc hp
        have := fm.2.1 (by simp [hm])
        omega
      · have := countP_get_pos _ _ j pc hpc hp
        have := fd.2.1 (by simp [hd])
        omega

/-! ## No starvation -/

theorem Reach.finish {n m : Nat} (k : Nat) (s : State) (hk : s.measure ≤ k)
    (h : Reach n m s) : ∃ (sched : List Tid) (s' : State), run sched s = some s' ∧ s'.allDone := by
  induction k generalizing s with
  | zero =>
    by_cases hd : s.allDone
    · exact ⟨[], s, rfl, hd⟩
    · exfalso
      apply hd
      apply h.stuck_done
      intro t s' hst
      have := measure_step hst
      omega
  | succ k ih =>
    by_cases hd : s.allDone
    · exact ⟨[], s, rfl, hd⟩
    · have : ∃ (t : Tid) (s1 : State), RW.step t s = .next s1 := by
        by_contra hno
        apply hd
        apply h.stuck_done
        intro t s' hst
        exact hno ⟨t, s', hst⟩
      obtain ⟨t, s1, hst⟩ := this
      have hlt := measure_step hst
      obtain ⟨sched, s', hr, hd'⟩ := ih s1 (by omega) (Reach.step t h hst)
      exact ⟨t :: sched, s', by simp [run, hst, hr], hd'⟩

theorem no_infinite (f : Nat → State) (hf : ∀ k, Step (f k) (f (k + 1))) (k : Nat) :
    (f k).measure + k ≤ (f 0).measure := by
  induction k with
  | zero => simp
  | succ k ih =>
    obtain ⟨t, ht⟩ := hf k
    have := measure_step ht
    omega

/-- A terminal state has no step. -/
theorem stuck_of_allDone {s : State} (hd : s.allDone) (t : Tid) (s' : State) :
    step t s ≠ .next s' := by
  intro h
  cases t with
  | r i =>
    simp only [step] at h
    rcases hpc : s.rs[i]? with _ | pc
    · simp [stepR, hpc] at h
    · have := hd.1 pc (List.getElem?_mem hpc)
      subst this
      simp [stepR, hpc] at h
  | w j =>
    simp only [step] at h
    rcases hpc : s.ws[j]? with _ | pc
    · simp [stepW, hpc] at h
    · have := hd.2 pc (List.getElem?_mem hpc)
      subst this
      simp [stepW, hpc] at h

/-- C7. No starvation with finitely many writers: every execution of `n` readers and `m`
writers from the initial state has at most `bound n m` steps, so there is no infinite
execution; a reachable state in which no task can take a step is one in which every reader
and every writer has returned (no reader is left in `cond.Wait()`, no task is left
blocked); no step of a reachable state is a fatal error; and every reachable state can be
run on to such a terminal state. -/
theorem no_starvation (n m : Nat) :
    (∀ (sched : List Tid) (s : State),
      run sched (init n m) = some s → sched.length ≤ bound n m) ∧
    (¬ ∃ f : Nat → State, f 0 = init n m ∧ ∀ k, Step (f k) (f (k + 1))) ∧
    (∀ s : State, Reach n m s →
      (∀ (t : Tid) (s' : State), step t s ≠ .next s') → s.allDone) ∧
    (∀ s : State, Reach n m s → ∀ t : Tid, step t s ≠ .fatal) ∧
    (∀ s : State, Reach n m s →
      ∃ (sched : List Tid) (s' : State), run sched s = some s' ∧ s'.allDone) := by
  refine ⟨?_, ?_, ?_, ?_, ?_⟩
  · intro sched s hr
    have := run_measure sched _ _ hr
    rw [measure_init] at this
    omega
  · rintro ⟨f, f0, hf⟩
    have := no_infinite f hf ((f 0).measure + 1)
    omega
  · intro s h hstuck
    exact h.stuck_done hstuck
  · intro s h t
    exact h.no_fatal t
  · intro s h
    exact Reach.finish s.measure s (le_refl _) h

theorem no_starvation_witness :
    demoSched.length ≤ bound 5 3 ∧ demoFinal.allDone :=
  ⟨(no_starvation 5 3).1 demoSched demoFinal (by decide),
   (no_starvation 5 3).2.2.1 demoFinal reach_demoFinal
     (stuck_of_allDone (by decide))⟩

/-! ## Lock discipline -/

/-- A step of a reader that changes a global other than `out` is a step of a reader that
holds `mu`; no step of a reader changes `value` or `pendingWriters`. -/
theorem stepR_frame {s s' : State} {i : Nat} (h : stepR i s = .next s') :
    s'.value = s.value ∧ s'.pendingWriters = s.pendingWriters ∧
    (s'.readerCount ≠ s.readerCount →
      ∃ pc, s.rs[i]? = some pc ∧ pc.holdsMu = true ∧ pc.touchesCounters = true) := by
  rcases hpc : s.rs[i]? with _ | pc
  · simp [stepR, hpc] at h
  · cases pc <;> simp only [stepR, hpc] at h <;> (try split at h) <;>
      simp only [Outcome.next.injEq, reduceCtorEq] at h <;> subst h <;>
      simp [State.setR, RPc.holdsMu, RPc.touchesCounters]

/-- A step of a writer that changes a counter is a step of a writer that holds `mu`; a step
of a writer that changes `value` is the store of `*p += 5`; no step of a writer changes
`readerCount`. -/
theorem stepW_frame {s s' : State} {j : Nat} (h : stepW j s = .next s') :
    s'.readerCount = s.readerCount ∧
    (s'.pendingWriters ≠ s.pendingWriters →
      ∃ pc, s.ws[j]? = some pc ∧ pc.holdsMu = true ∧ pc.touchesCounters = true) ∧
    (s'.value ≠ s.value →
      ∃ pc, s.ws[j]? = some pc ∧ pc.isStore = true) := by
  rcases hpc : s.ws[j]? with _ | pc
  · simp [stepW, hpc] at h
  · cases pc <;> simp only [stepW, hpc] at h <;> (try split at h) <;>
      simp only [Outcome.next.injEq, reduceCtorEq] at h <;> subst h <;>
      simp [State.setW, WPc.holdsMu, WPc.touchesCounters, WPc.isStore]

theorem statRead (l : List RPc) :
    l.countP RPc.isIfFirst + l.countP RPc.isDbLock + l.countP RPc.readsValue
      ≤ l.countP RPc.admitted := by
  induction l with
  | nil => simp
  | cons a l ih =>
    cases a <;>
    simp [List.countP_cons, RPc.isIfFirst, RPc.isDbLock, RPc.readsValue, RPc.admitted] <;>
    omega

/-- In a reachable state a task at a statement that holds `mu` finds `mu` locked and is the
only such task; a writer inside its window finds `db` locked. -/
theorem Reach.locks {n m : Nat} {s : State} (h : Reach n m s) :
    (1 ≤ s.nR RPc.holdsMu + s.nW WPc.holdsMu →
      s.mu = true ∧ s.nR RPc.holdsMu + s.nW WPc.holdsMu = 1) ∧
    (1 ≤ s.nW WPc.inWindow →
      s.db = true ∧ s.nW WPc.inWindow = 1 ∧ s.nR RPc.admitted = 0) ∧
    (1 ≤ s.nR RPc.admitted → s.nW WPc.inWindow = 0) ∧
    (1 ≤ s.nR RPc.readsValue → s.db = true) := by
  obtain ⟨⟨i1, i2, i3, i4, i5, i6, i7, i8, i9, i10, i11, i12, i13, i14⟩, -, -⟩ := h.inv
  have hs := statR s.rs
  have hw := statW s.ws s.value
  have hr := statRead s.rs
  have fm := toNat_facts s.mu
  have fd := toNat_facts s.db
  simp only [State.nR, State.nW] at *
  have hmu : s.mu = true ↔ s.mu.toNat = 1 := by cases s.mu <;> simp
  have hdb : s.db = true ↔ s.db.toNat = 1 := by cases s.db <;> simp
  rw [hmu, hdb]
  refine ⟨?_, ?_, ?_, ?_⟩ <;> intros <;> omega

theorem RPc.holdsMu_of_touchesR (pc : RPc) (h : pc.touchesCounters = true) :
    pc.holdsMu = true := by
  cases pc <;> simp [RPc.touchesCounters, RPc.holdsMu] at *

theorem WPc.holdsMu_of_touchesW (pc : WPc) (h : pc.touchesCounters = true) :
    pc.holdsMu = true := by
  cases pc <;> simp [WPc.touchesCounters, WPc.holdsMu] at *

theorem WPc.inWindow_of_isStore (pc : WPc) (h : pc.isStore = true) : pc.inWindow = true := by
  cases pc <;> simp [WPc.isStore, WPc.inWindow] at *

theorem RPc.admitted_of_reads (pc : RPc) (h : pc.readsValue = true) : pc.admitted = true := by
  cases pc <;> simp [RPc.readsValue, RPc.admitted] at *

theorem WPc.inWindow_of_reads (pc : WPc) (h : pc.readsValue = true) : pc.inWindow = true := by
  cases pc <;> simp [WPc.readsValue, WPc.inWindow] at *

/-- C10. Lock discipline: in a reachable state, a task about to execute a statement that
reads or writes `readerCount` or `pendingWriters` holds `mu` (and is the only task that
does); a step that changes `readerCount` or `pendingWriters` is a step of the task that
holds `mu`; a step that changes the shared value is the store of a writer that holds `db`
(and is the only writer in its window, with no reader admitted); a reader about to read
`*p` is inside its admitted window, `db` is locked and no writer is in its window (`db` is
held on behalf of the readers); a writer about to read `*p` holds `db`. -/
theorem lock_discipline (n m : Nat) (s : State) (h : Reach n m s) :
    (∀ (i : Nat) (pc : RPc), s.rs[i]? = some pc → pc.touchesCounters = true →
      pc.holdsMu = true ∧ s.mu = true ∧ s.nR RPc.holdsMu + s.nW WPc.holdsMu = 1) ∧
    (∀ (j : Nat) (pc : WPc), s.ws[j]? = some pc → pc.touchesCounters = true →
      pc.holdsMu = true ∧ s.mu = true ∧ s.nR RPc.holdsMu + s.nW WPc.holdsMu = 1) ∧
    (∀ (t : Tid) (s' : State), step t s = .next s' →
      (s'.readerCount ≠ s.readerCount ∨ s'.pendingWriters ≠ s.pendingWriters) →
      s.taskAt t RPc.holdsMu WPc.holdsMu ∧ s.mu = true ∧
        s.nR RPc.holdsMu + s.nW WPc.holdsMu = 1) ∧
    (∀ (t : Tid) (s' : State), step t s = .next s' → s'.value ≠ s.value →
      (∃ j : Nat, t = Tid.w j) ∧ s.taskAt t (fun _ => false) WPc.inWindow ∧ s.db = true ∧
        s.nW WPc.inWindow = 1 ∧ s.nR RPc.admitted = 0) ∧
    (∀ (i : Nat) (pc : RPc), s.rs[i]? = some pc → pc.readsValue = true →
      pc.admitted = true ∧ s.db = true ∧ s.nW WPc.inWindow = 0) ∧
    (∀ (j : Nat) (pc : WPc), s.ws[j]? = some pc → pc.readsValue = true →
      pc.inWindow = true ∧ s.db = true ∧ s.nW WPc.inWindow = 1) := by
  obtain ⟨L1, L2, L3, L4⟩ := h.locks
  have holdR : ∀ (i : Nat) (pc : RPc), s.rs[i]? = some pc → pc.holdsMu = true →
      s.mu = true ∧ s.nR RPc.holdsMu + s.nW WPc.holdsMu = 1 := by
    intro i pc hi hp
    have := countP_get_pos _ _ i pc hi hp
    exact L1 (by simp only [State.nR]; omega)
  have holdW : ∀ (j : Nat) (pc : WPc), s.ws[j]? = some pc → pc.holdsMu = true →
      s.mu = true ∧ s.nR RPc.holdsMu + s.nW WPc.holdsMu = 1 := by
    intro j pc hj hp
    have := countP_get_pos _ _ j pc hj hp
    exact L1 (by simp only [State.nW]; omega)
  refine ⟨?_, ?_, ?_, ?_, ?_, ?_⟩
  · intro i pc hi ht
    have hp := pc.holdsMu_of_touchesR ht
    exact ⟨hp, holdR i pc hi hp⟩
  · intro j pc hj ht
    have hp := pc.holdsMu_of_touchesW ht
    exact ⟨hp, holdW j pc hj hp⟩
  · intro t s' hst hch
    cases t with
    | r i =>
      obtain ⟨-, f2, f3⟩ := stepR_frame hst
      rcases hch with hch | hch
      · obtain ⟨pc, hi, hp, -⟩ := f3 hch
        exact ⟨⟨pc, hi, hp⟩, holdR i pc hi hp⟩
      · exact absurd f2 hch
    | w j =>
      obtain ⟨f1, f2, -⟩ := stepW_frame hst
      rcases hch with hch | hch
      · exact absurd f1 hch
      · obtain ⟨pc, hj, hp, -⟩ := f2 hch
        exact ⟨⟨pc, hj, hp⟩, holdW j pc hj hp⟩
  · intro t s' hst hch
    cases t with
    | r i => exact absurd (stepR_frame hst).1 hch
    | w j =>
      obtain ⟨pc, hj, hp⟩ := (stepW_frame hst).2.2 hch
      have hin := pc.inWindow_of_isStore hp
      have := countP_get_pos _ _ j pc hj hin
      exact ⟨⟨j, rfl⟩, ⟨pc, hj, hin⟩, L2 this⟩
  · intro i pc hi hr
    have hp := pc.admitted_of_reads hr
    have h1 := countP_get_pos _ _ i pc hi hp
    have h2 := countP_get_pos _ _ i pc hi hr
    exact ⟨hp, L4 h2, L3 h1⟩
  · intro j pc hj hr
    have hp := pc.inWindow_of_reads hr
    have := countP_get_pos _ _ j pc hj hp
    exact ⟨hp, (L2 this).1, (L2 this).2.1⟩

theorem lock_discipline_witness :
    Reach 2 2 midWrite ∧ midWrite.db = true ∧ midWrite.nW WPc.inWindow = 1 ∧
      midWrite.nR RPc.admitted = 0 :=
  ⟨reach_midWrite,
   ((lock_discipline 2 2 midWrite reach_midWrite).2.2.2.1 (Tid.w 0)
      { midWrite with value := 5, ws := [.print, .dbLock] } (by decide) (by decide)).2.2⟩

/-! ## The release part of the writer -/

/-- The release part of `writer` run alone: from any state in which writer `j` is about to
execute `db.Unlock()` with `db` locked and `pendingWriters = w ≥ 1`, and in which `mu` is
unlocked, the solo run reaches the writer's return and leaves `db` unlocked,
`pendingWriters = w - 1`, `mu` unlocked, and `readerCount`, the shared value and the output
unchanged; if `w - 1 = 0` every reader suspended in `cond.Wait()` has been notified (and no
other reader has moved), and if `w - 1 ≠ 0` no reader has moved. -/
theorem end_write_contract (s : State) (j : Nat) (w : Int)
    (hj : s.ws[j]? = some WPc.dbUnlock) (hdb : s.db = true) (hmu : s.mu = false)
    (hw : s.pendingWriters = w) (hw1 : 1 ≤ w) :
    ∃ s' : State, endWrite j s = some s' ∧
      s'.db = false ∧ s'.pendingWriters = w - 1 ∧ s'.readerCount = s.readerCount ∧
      s'.value = s.value ∧ s'.mu = false ∧ s'.out = s.out ∧
      s'.ws = s.ws.set j WPc.done ∧
      (w - 1 = 0 → s'.rs = s.rs.map wake ∧
        ∀ i : Nat, s.rs[i]? = some RPc.blocked → s'.rs[i]? = some RPc.woken) ∧
      (w - 1 ≠ 0 → s'.rs = s.rs) := by
  subst hw
  by_cases h0 : s.pendingWriters - 1 = 0
  · refine ⟨{ s with
        db := false, pendingWriters := s.pendingWriters - 1,
        rs := s.rs.map wake, ws := s.ws.set j WPc.done }, ?_, rfl, rfl, rfl, rfl,
        hmu, rfl, rfl, ?_, ?_⟩
    · simp [endWrite, hj, runWriter, stepW, State.setW, get_set_self _ _ _ _ hj,
        List.set_set, hdb, hmu, h0]
    · intro _
      refine ⟨rfl, ?_⟩
      intro i hi
      simp [hi, wake]
    · intro hne
      exact absurd h0 hne
  · refine ⟨{ s with
        db := false, pendingWriters := s.pendingWriters - 1,
        ws := s.ws.set j WPc.done }, ?_, rfl, rfl, rfl, rfl, hmu, rfl, rfl, ?_, ?_⟩
    · simp [endWrite, hj, runWriter, stepW, State.setW, get_set_self _ _ _ _ hj,
        List.set_set, hdb, hmu, h0]
    · intro h
      exact absurd h h0
    · intro _
      rfl

theorem reach_lastWrite : Reach 2 1 lastWrite :=
  Reach.of_run lastWriteSched Reach.init (by decide)

theorem end_write_contract_example :
    ∃ s' : State, endWrite 0 lastWrite = some s' ∧
      s'.db = false ∧ s'.pendingWriters = 1 - 1 ∧ s'.readerCount = lastWrite.readerCount ∧
      s'.value = lastWrite.value ∧ s'.mu = false ∧ s'.out = lastWrite.out ∧
      s'.ws = lastWrite.ws.set 0 WPc.done ∧
      ((1 : Int) - 1 = 0 → s'.rs = lastWrite.rs.map wake ∧
        ∀ i : Nat, lastWrite.rs[i]? = some RPc.blocked → s'.rs[i]? = some RPc.woken) ∧
      ((1 : Int) - 1 ≠ 0 → s'.rs = lastWrite.rs) :=
  end_write_contract lastWrite 0 1 (by decide) (by decide) (by decide) (by decide) (by decide)

/-! ## Reader concurrency -/

theorem get_replicate_mid {α : Type} (k : Nat) (a x : α) (rest : List α) :
    (List.replicate k a ++ x :: rest)[k]? = some x := by
  induction k with
  | zero => simp
  | succ k ih => simpa [List.replicate_succ] using ih

theorem set_replicate_mid {α : Type} (k : Nat) (a x y : α) (rest : List α) :
    (List.replicate k a ++ x :: rest).set k y = List.replicate k a ++ y :: rest := by
  induction k with
  | zero => simp
  | succ k ih => simp [List.replicate_succ, ih]

theorem replicate_snoc {α : Type} (k : Nat) (a : α) (rest : List α) :
    List.replicate k a ++ a :: rest = List.replicate (k + 1) a ++ rest := by
  induction k with
  | zero => simp
  | succ k ih =>
    rw [List.replicate_succ, List.cons_append, ih]
    rfl

/-- The first reader enters: six statements of reader 0 lead from the initial state to the
state with one admitted reader. -/
theorem run_first (r m : Nat) :
    run (solo (.r 0) 6) (init (r + 1) m) = some (crowd (r + 1) m 1) := by
  simp [solo, List.replicate, run, step, stepR, RW.init, crowd, State.setR]

/-- Another reader enters: five statements of reader `k` lead from the state with `k ≥ 1`
admitted readers to the state with `k + 1` admitted readers. -/
theorem run_next (k r m : Nat) (hk : 1 ≤ k) :
    run (solo (.r k) 5) (crowd (k + 1 + r) m k) = some (crowd (k + 1 + r) m (k + 1)) := by
  have e1 : k + 1 + r - k = r + 1 := by omega
  have e2 : k + 1 + r - (k + 1) = r := by omega
  have e3 : ¬ ((k : Int) + 1 = 1) := by omega
  have c0 : crowd (k + 1 + r) m k = crowdPlus k r m .lock1 k false := by
    simp [crowd, crowdPlus, e1, List.replicate_succ]
  have c5 : crowdPlus k r m .print (k + 1) false = crowd (k + 1 + r) m (k + 1) := by
    simp [crowd, crowdPlus, e2, replicate_snoc]
  have s1 : step (.r k) (crowdPlus k r m .lock1 k false) =
      .next (crowdPlus k r m .loop k true) := by
    simp only [step, stepR, crowdPlus, get_replicate_mid, State.setR, set_replicate_mid]
    simp
  have s2 : step (.r k) (crowdPlus k r m .loop k true) =
      .next (crowdPlus k r m .inc k true) := by
    simp only [step, stepR, crowdPlus, get_replicate_mid, State.setR, set_replicate_mid]
    simp
  have s3 : step (.r k) (crowdPlus k r m .inc k true) =
      .next (crowdPlus k r m .ifFirst (k + 1) true) := by
    simp only [step, stepR, crowdPlus, get_replicate_mid, State.setR, set_replicate_mid]
  have s4 : step (.r k) (crowdPlus k r m .ifFirst (k + 1) true) =
      .next (crowdPlus k r m .unlock1 (k + 1) true) := by
    simp only [step, stepR, crowdPlus, get_replicate_mid, State.setR, set_replicate_mid]
    simp [e3]
  have s5 : step (.r k) (crowdPlus k r m .unlock1 (k + 1) true) =
      .next (crowdPlus k r m .print (k + 1) false) := by
    simp only [step, stepR, crowdPlus, get_replicate_mid, State.setR, set_replicate_mid]
    simp
  rw [c0]
  simp only [solo, List.replicate, run, s1, s2, s3, s4, s5]
  rw [c5]

theorem reach_crowd (n m k : Nat) (hk : 1 ≤ k) (hkn : k ≤ n) : Reach n m (crowd n m k) := by
  induction k with
  | zero => omega
  | succ k ih =>
    obtain ⟨r, rfl⟩ : ∃ r, n = k + 1 + r := ⟨n - (k + 1), by omega⟩
    rcases Nat.eq_zero_or_pos k with h0 | hpos
    · subst h0
      have := run_first r m
      simp only [Nat.zero_add] at this ⊢
      rw [Nat.add_comm 1 r]
      exact Reach.of_run _ Reach.init this
    · exact Reach.of_run _ (ih hpos (by omega)) (run_next k r m hpos)

/-- C8. Reader concurrency: for `n ≥ 1` readers and every `k` with `1 ≤ k ≤ n` there is a
reachable state in which `k` readers are inside their admitted windows at the same time:
the first `k` readers are about to read, `readerCount = k`, `db` is locked (once, by the
first of them), `mu` is unlocked and no writer is inside its window. -/
theorem reader_concurrency (n m k : Nat) (hk : 1 ≤ k) (hkn : k ≤ n) :
    ∃ s : State, Reach n m s ∧ s.nR RPc.admitted = k ∧ s.readerCount = k ∧ s.db = true ∧
      s.mu = false ∧ s.nW WPc.inWindow = 0 ∧
      ∀ i : Nat, i < k → s.rs[i]? = some RPc.print := by
  refine ⟨crowd n m k, reach_crowd n m k hk hkn, ?_, rfl, rfl, rfl, ?_, ?_⟩
  · simp [crowd, State.nR, List.countP_replicate, RPc.admitted]
  · simp [crowd, State.nW, List.countP_replicate, WPc.inWindow]
  · intro i hi
    simp [crowd, List.getElem?_append_left, hi]

theorem reader_concurrency_witness :
    ∃ s : State, Reach 5 3 s ∧ s.nR RPc.admitted = 3 ∧ s.readerCount = (3 : Nat) ∧
      s.db = true ∧ s.mu = false ∧ s.nW WPc.inWindow = 0 ∧
      ∀ i : Nat, i < 3 → s.rs[i]? = some RPc.print :=
  reader_concurrency 5 3 3 (by decide) (by decide)

/-! ## No blocking while holding `mu` -/

theorem reach_firstLock : Reach 1 0 firstLock :=
  Reach.of_run (solo (.r 0) 4) Reach.init (by decide)

theorem reach_lastDec : Reach 1 1 lastDec :=
  Reach.of_run lastDecSched Reach.init (by decide)

/-- In a reachable state the first reader finds `db` unlocked at its `db.Lock()`. -/
theorem Reach.first_lock {n m : Nat} {s : State} (h : Reach n m s)
    (hl : 1 ≤ s.nR RPc.isDbLock) :
    s.readerCount = 1 ∧ s.pendingWriters = 0 ∧ s.db = false := by
  obtain ⟨⟨i1, i2, i3, i4, i5, i6, i7, i8, i9, i10, i11, i12, i13, i14⟩, -, -⟩ := h.inv
  have hs := statR s.rs
  have hw := statW s.ws s.value
  have fd := toNat_facts s.db
  simp only [State.nR, State.nW] at *
  have hdb : s.db = false ↔ s.db.toNat = 0 := by cases s.db <;> simp
  rw [hdb]
  refine ⟨?_, ?_, ?_⟩ <;> omega

/-- A step that is blocked is a step of a task at a blocking statement. -/
theorem stepR_blocked (s : State) (i : Nat) (pc : RPc) (h : s.rs[i]? = some pc)
    (hb : stepR i s = .blocked) : pc.holdsMu = false ∨ (pc = RPc.dbLock ∧ s.db = true) := by
  cases pc <;> simp only [stepR, h] at hb <;> (try split at hb) <;>
    simp_all [RPc.holdsMu]

theorem stepW_blocked (s : State) (j : Nat) (pc : WPc) (h : s.ws[j]? = some pc)
    (hb : stepW j s = .blocked) : pc.holdsMu = false := by
  cases pc <;> simp only [stepW, h] at hb <;> (try split at hb) <;>
    simp_all [WPc.holdsMu]

/-- C14. No task blocks while holding the control lock: in every reachable state a reader
about to execute the `db.Lock()` of l.117 (it holds `mu`, left the wait loop with
`pendingWriters = 0` and raised `readerCount` to 1) finds `db` unlocked, so the call
succeeds at once; a task whose next statement cannot proceed (a `Lock` of a locked mutex, a
reader suspended in `cond.Wait()`) does not hold `mu`; and the task that holds `mu` can
always execute its next statement. -/
theorem no_block_holding_mu (n m : Nat) (s : State) (h : Reach n m s) :
    (∀ i : Nat, s.rs[i]? = some RPc.dbLock →
      s.readerCount = 1 ∧ s.pendingWriters = 0 ∧ s.db = false ∧
      stepR i s = .next ({ s with db := true }.setR i RPc.unlock1)) ∧
    (∀ t : Tid, step t s = .blocked →
      s.taskAt t (fun pc => !pc.holdsMu) (fun pc => !pc.holdsMu)) ∧
    (∀ t : Tid, s.taskAt t RPc.holdsMu WPc.holdsMu → ∃ s' : State, step t s = .next s') := by
  have first : ∀ i : Nat, s.rs[i]? = some RPc.dbLock →
      s.readerCount = 1 ∧ s.pendingWriters = 0 ∧ s.db = false := by
    intro i hi
    exact h.first_lock (countP_get_pos _ _ i _ hi rfl)
  refine ⟨?_, ?_, ?_⟩
  · intro i hi
    obtain ⟨h1, h2, h3⟩ := first i hi
    refine ⟨h1, h2, h3, ?_⟩
    simp [stepR, hi, h3]
  · intro t hb
    cases t with
    | r i =>
      simp only [step] at hb
      rcases hpc : s.rs[i]? with _ | pc
      · simp [stepR, hpc] at hb
      · rcases stepR_blocked s i pc hpc hb with hp | ⟨hp, hd⟩
        · exact ⟨pc, hpc, by simp [hp]⟩
        · subst hp
          have := (first i hpc).2.2
          rw [hd] at this
          exact absurd this (by decide)
    | w j =>
      simp only [step] at hb
      rcases hpc : s.ws[j]? with _ | pc
      · simp [stepW, hpc] at hb
      · exact ⟨pc, hpc, by simp [stepW_blocked s j pc hpc hb]⟩
  · intro t ht
    cases t with
    | r i =>
      obtain ⟨pc, hpc, hp⟩ := ht
      have hmu : s.mu = true := (h.locks.1 (by
        have := countP_get_pos _ _ i pc hpc hp
        simp only [State.nR]; omega)).1
      have hunl : pc = RPc.dbUnlock → s.db = true := by
        intro e
        subst e
        have := (h.inv.1.dbUnl (countP_get_pos _ _ i _ hpc rfl)).2.1
        cases hd : s.db <;> simp [hd] at this ⊢
      have hlck : pc = RPc.dbLock → s.db = false := by
        intro e
        subst e
        exact (first i hpc).2.2
      apply (stepR_enabled s i pc hpc).1
      cases pc <;> simp [RPc.holdsMu] at hp <;> simp [RPc.enabled, hmu]
      · exact hlck rfl
      · exact hunl rfl
    | w j =>
      obtain ⟨pc, hpc, hp⟩ := ht
      have hmu : s.mu = true := (h.locks.1 (by
        have := countP_get_pos _ _ j pc hpc hp
        simp only [State.nW]; omega)).1
      apply (stepW_enabled s j pc hpc).1
      cases pc <;> simp [WPc.holdsMu] at hp <;> simp [WPc.enabled, hmu]

theorem no_block_holding_mu_witness :
    Reach 1 0 firstLock ∧ firstLock.db = false ∧
      stepR 0 firstLock = .next ({ firstLock with db := true }.setR 0 RPc.unlock1) :=
  ⟨reach_firstLock,
   ((no_block_holding_mu 1 0 firstLock reach_firstLock).1 0 (by decide)).2.2⟩

/-! ## Deadlock freedom and wake-ups -/

/-- A reader suspended in `cond.Wait()` stays suspended or is notified. -/
theorem blocked_step {s s' : State} {t : Tid} (h : step t s = .next s') (i : Nat)
    (hi : s.rs[i]? = some RPc.blocked) :
    s'.rs[i]? = some RPc.blocked ∨ s'.rs[i]? = some RPc.woken := by
  cases t with
  | r k =>
    simp only [step] at h
    by_cases hk : k = i
    · subst hk
      simp [stepR, hi] at h
    · left
      rcases hpc : s.rs[k]? with _ | pc
      · simp [stepR, hpc] at h
      · cases pc <;> simp only [stepR, hpc] at h <;> (try split at h) <;>
          simp only [Outcome.next.injEq, reduceCtorEq] at h <;> subst h <;>
          simp only [State.setR, get_set_ne _ _ _ _ hk, hi]
  | w j =>
    simp only [step] at h
    rcases hpc : s.ws[j]? with _ | pc
    · simp [stepW, hpc] at h
    · cases pc <;> simp only [stepW, hpc] at h <;> (try split at h) <;>
        simp only [Outcome.next.injEq, reduceCtorEq] at h <;> subst h <;>
        simp [State.setW, hi, wake]

/-- A run that takes a suspended reader to its return passes through its notification. -/
theorem woken_on_the_way (sched : List Tid) (s s' : State) (i : Nat)
    (hr : run sched s = some s') (hi : s.rs[i]? = some RPc.blocked)
    (hd : s'.rs[i]? = some RPc.done) :
    ∃ (pre : List Tid) (s1 : State), run pre s = some s1 ∧ s1.rs[i]? = some RPc.woken := by
  induction sched generalizing s with
  | nil =>
    simp [run] at hr
    subst hr
    rw [hi] at hd
    simp at hd
  | cons t ts ih =>
    simp only [run] at hr
    split at hr
    · rename_i s1 hs1
      rcases blocked_step hs1 i hi with hb | hw
      · obtain ⟨pre, s2, hp, h2⟩ := ih s1 hr hb
        exact ⟨t :: pre, s2, by simp [run, hs1, hp], h2⟩
      · exact ⟨[t], s1, by simp [run, hs1], hw⟩
    · simp at hr

theorem length_run (sched : List Tid) (s s' : State) (hr : run sched s = some s') :
    s'.rs.length = s.rs.length ∧ s'.ws.length = s.ws.length := by
  induction sched generalizing s with
  | nil => simp [run] at hr; subst hr; exact ⟨rfl, rfl⟩
  | cons t ts ih =>
    simp only [run] at hr
    split at hr
    · rename_i s1 hs1
      have h1 := length_step hs1
      have h2 := ih s1 hr
      exact ⟨by omega, by omega⟩
    · simp at hr

theorem deadlock_freedom_counterexample :
    Reach 1 1 lastDec ∧ lastDec.rs[0]? = some RPc.blocked ∧ ¬ (0 < lastDec.pendingWriters) :=
  ⟨reach_lastDec, by decide, by decide⟩

/-- C15 (amended). Deadlock freedom: in every reachable state either every task has
returned or some task has an enabled step; and whenever a reader is suspended in
`cond.Wait()` without having been notified, either `pendingWriters > 0`, or
`pendingWriters = 0` and the writer that has just lowered it is at its test or at its
`cond.Broadcast()`; in both cases some writer has its `pendingWriters--` or its broadcast
still ahead, and the state can be run on to a state in which the reader has been notified
(no lost wake-up). -/
theorem deadlock_freedom (n m : Nat) (s : State) (h : Reach n m s) :
    (s.allDone ∨ ∃ (t : Tid) (s' : State), step t s = .next s') ∧
    (∀ i : Nat, s.rs[i]? = some RPc.blocked →
      (0 < s.pendingWriters ∨
        (s.pendingWriters = 0 ∧
          ∃ (j : Nat) (pc : WPc), s.ws[j]? = some pc ∧ pc.announcing = true)) ∧
      (∃ (j : Nat) (pc : WPc), s.ws[j]? = some pc ∧
        (pc.pending = true ∨ pc.announcing = true)) ∧
      ∃ (sched : List Tid) (s' : State),
        run sched s = some s' ∧ s'.rs[i]? = some RPc.woken) := by
  refine ⟨?_, ?_⟩
  · by_cases hd : s.allDone
    · exact Or.inl hd
    · right
      by_contra hno
      apply hd
      apply h.stuck_done
      intro t s' hst
      exact hno ⟨t, s', hst⟩
  · intro i hi
    obtain ⟨hI, -, -⟩ := h.inv
    have hb := hI.blk (countP_get_pos _ _ i _ hi rfl)
    have hpw := hI.pw
    simp only [State.nW] at hb hpw
    refine ⟨?_, ?_, ?_⟩
    · rcases hb with hb | hb
      · exact Or.inl (by omega)
      · by_cases h0 : 0 < s.pendingWriters
        · exact Or.inl h0
        · exact Or.inr ⟨by omega, countP_pos_get _ _ hb⟩
    · rcases hb with hb | hb
      · obtain ⟨j, pc, hj, hp⟩ := countP_pos_get WPc.pending s.ws (by omega)
        exact ⟨j, pc, hj, Or.inl hp⟩
      · obtain ⟨j, pc, hj, hp⟩ := countP_pos_get _ _ hb
        exact ⟨j, pc, hj, Or.inr hp⟩
    · obtain ⟨sched, s', hr, hd⟩ := Reach.finish s.measure s (le_refl _) h
      have hlen := (length_run sched s s' hr).1
      have hlt : i < s.rs.length := by
        rcases Nat.lt_or_ge i s.rs.length with hlt | hge
        · exact hlt
        · rw [List.getElem?_eq_none hge] at hi
          simp at hi
      have hget : s'.rs[i]? = some (s'.rs[i]) := List.getElem?_eq_getElem (by omega)
      have hdone : s'.rs[i]? = some RPc.done := by
        rw [hget, hd.1 _ (List.getElem?_mem hget)]
      exact woken_on_the_way sched s s' i hr hi hdone

theorem deadlock_freedom_witness :
    Reach 1 1 lastDec ∧
      ∃ (sched : List Tid) (s' : State),
        run sched lastDec = some s' ∧ s'.rs[0]? = some RPc.woken :=
  ⟨reach_lastDec,
   ((deadlock_freedom 1 1 lastDec reach_lastDec).2 0 (by decide)).2.2⟩

/-! ## Unmatched release parts -/

theorem protocol_violation_counterexample :
    endRead 0 unmatchedRead =
      some { init 1 0 with rs := [RPc.done], readerCount := -1 } := by
  decide

/-- C12 (amended). The code has no `ProtocolViolation` outcome: a release part run without
its entry part either completes silently or ends in the runtime's fatal "unlock of unlocked
mutex". With `mu` unlocked and `readerCount` a 64-bit `int` above the smallest one, the
release part of `reader` lowers `readerCount` by one (from the initial state to `-1`) and
changes nothing else if the result is not 0; if the result is 0 it also executes
`db.Unlock()`, which unlocks `db` when it is locked, whoever locked it, and is the fatal
error when it is not. The release part of `writer` is that fatal error at once when `db` is
unlocked, as in the initial state, with no counter changed; when `db` is locked, whoever
locked it, and `mu` is unlocked, it unlocks `db`, lowers `pendingWriters` by one (from 0 to
`-1`) and notifies the suspended readers if the result is 0. In the executions of `reader`
and `writer` a release part runs only after its entry part: a reader at `readerCount--`
finds `readerCount ≥ 1`, a writer at `db.Unlock()` finds `db` locked and
`pendingWriters ≥ 1`. -/
theorem no_protocol_violation :
    (∀ (s : State) (i : Nat), s.rs[i]? = some RPc.lock2 → s.mu = false →
      -(2 : Int) ^ 63 < s.readerCount → s.readerCount < (2 : Int) ^ 63 →
      s.readerCount ≠ 1 →
      endRead i s =
        some { s with readerCount := s.readerCount - 1, rs := s.rs.set i RPc.done }) ∧
    (∀ (s : State) (i : Nat), s.rs[i]? = some RPc.lock2 → s.mu = false →
      s.readerCount = 1 → s.db = true →
      endRead i s =
        some { s with readerCount := 0, db := false, rs := s.rs.set i RPc.done }) ∧
    (∀ (s : State) (i : Nat), s.rs[i]? = some RPc.lock2 → s.mu = false →
      s.readerCount = 1 → s.db = false →
      endRead i s = none ∧
      run (solo (.r i) 3) s =
        some { s with mu := true, readerCount := 0, rs := s.rs.set i RPc.dbUnlock } ∧
      stepR i { s with mu := true, readerCount := 0, rs := s.rs.set i RPc.dbUnlock } =
        .fatal) ∧
    (∀ (s : State) (j : Nat), s.ws[j]? = some WPc.dbUnlock → s.db = false →
      stepW j s = .fatal ∧ endWrite j s = none) ∧
    (∀ (s : State) (j : Nat), s.ws[j]? = some WPc.dbUnlock → s.db = true → s.mu = false →
      -(2 : Int) ^ 63 < s.pendingWriters → s.pendingWriters < (2 : Int) ^ 63 →
      endWrite j s =
        some { s with
          db := false, pendingWriters := s.pendingWriters - 1,
          ws := s.ws.set j WPc.done,
          rs := if s.pendingWriters - 1 = 0 then s.rs.map wake else s.rs }) ∧
    (∀ (n m : Nat) (s : State), Reach n m s →
      (∀ i : Nat, s.rs[i]? = some RPc.dec → 1 ≤ s.readerCount) ∧
      (∀ j : Nat, s.ws[j]? = some WPc.dbUnlock → s.db = true ∧ 1 ≤ s.pendingWriters)) := by
  refine ⟨?_, ?_, ?_, ?_, ?_, ?_⟩
  · intro s i hi hmu _ _ hne
    have hne' : ¬ (s.readerCount - 1 = 0) := by omega
    simp [endRead, hi, runReader, stepR, State.setR, get_set_self _ _ _ _ hi, List.set_set,
      hmu, hne']
  · intro s i hi hmu h1 hdb
    simp [endRead, hi, runReader, stepR, State.setR, get_set_self _ _ _ _ hi, List.set_set,
      hmu, h1, hdb]
  · intro s i hi hmu h1 hdb
    refine ⟨?_, ?_, ?_⟩
    · simp [endRead, hi, runReader, stepR, State.setR, get_set_self _ _ _ _ hi,
        List.set_set, hmu, h1, hdb]
    · simp [solo, List.replicate, run, step, stepR, hi, State.setR,
        get_set_self _ _ _ _ hi, List.set_set, hmu, h1]
    · simp [stepR, get_set_self _ _ _ _ hi, hdb]
  · intro s j hj hdb
    have hf : stepW j s = .fatal := by simp [stepW, hj, hdb]
    exact ⟨hf, by simp [endWrite, hj, runWriter, hf]⟩
  · intro s j hj hdb hmu _ _
    by_cases h0 : s.pendingWriters - 1 = 0
    · simp [endWrite, hj, runWriter, stepW, State.setW, get_set_self _ _ _ _ hj,
        List.set_set, hdb, hmu, h0]
    · simp [endWrite, hj, runWriter, stepW, State.setW, get_set_self _ _ _ _ hj,
        List.set_set, hdb, hmu, h0]
  · intro n m s h
    obtain ⟨hI, -, -⟩ := h.inv
    have h2 := hI.rc
    have h3 := hI.pw
    simp only [State.nR, State.nW] at h2 h3
    refine ⟨?_, ?_⟩
    · intro i hi
      have := countP_get_pos RPc.admitted _ i _ hi rfl
      omega
    · intro j hj
      have h1 := countP_get_pos WPc.inWindow _ j _ hj rfl
      have h4 := countP_get_pos WPc.pending _ j _ hj rfl
      exact ⟨(h.locks.2.1 h1).1, by omega⟩

theorem no_protocol_violation_witness :
    endRead 0 unmatchedRead =
        some { unmatchedRead with
          readerCount := unmatchedRead.readerCount - 1,
          rs := unmatchedRead.rs.set 0 RPc.done } ∧
      (stepW 0 unmatchedWrite = .fatal ∧ endWrite 0 unmatchedWrite = none) ∧
      endWrite 0 strayWrite =
        some { strayWrite with
          db := false, pendingWriters := strayWrite.pendingWriters - 1,
          ws := strayWrite.ws.set 0 WPc.done,
          rs := if strayWrite.pendingWriters - 1 = 0 then strayWrite.rs.map wake
            else strayWrite.rs } ∧
      (lastWrite.db = true ∧ 1 ≤ lastWrite.pendingWriters) :=
  ⟨no_protocol_violation.1 unmatchedRead 0 (by decide) (by decide) (by decide) (by decide)
     (by decide),
   no_protocol_violation.2.2.2.1 unmatchedWrite 0 (by decide) (by decide),
   no_protocol_violation.2.2.2.2.1 strayWrite 0 (by decide) (by decide) (by decide)
     (by decide) (by decide),
   (no_protocol_violation.2.2.2.2.2 2 1 lastWrite reach_lastWrite).2 0 (by decide)⟩

/-! ## Counting lock events -/

/-- Along a step, the readers that raised `readerCount` from 0 to 1 and the readers that
locked `db` differ by the readers still between the two. -/
theorem first_step {n m : Nat} {s s' : State} {t : Tid} (hr : Reach n m s)
    (h : step t s = .next s') :
    evUp t s + s.firstPending = evRLock t s + s'.firstPending := by
  obtain ⟨⟨i1, i2, i3, i4, i5, i6, i7, i8, i9, i10, i11, i12, i13, i14⟩, -, -⟩ := hr.inv
  have hs := statR s.rs
  have fm := toNat_facts s.mu
  simp only [State.nR, State.nW] at *
  cases t with
  | r i =>
    simp only [step] at h
    rcases hpc : s.rs[i]? with _ | pc
    · simp [stepR, hpc] at h
    · have B := lowerR s i _ hpc
      cases pc <;> simp only [stepR, hpc] at h <;> (try split at h) <;>
        simp only [Outcome.next.injEq, reduceCtorEq] at h <;> subst h <;>
        simp only [RPc.entering, RPc.isWait, RPc.isIfLast, RPc.isDbUnlock, RPc.admitted,
          RPc.isBlocked, RPc.holdsMu, RPc.isIfFirst, RPc.isDbLock, RPc.isInc, RPc.calm,
          Bool.toNat_true, Bool.toNat_false] at B <;>
        simp only [evUp, evRLock, hpc, State.firstPending, State.nR, State.setR,
          countP_set_eq _ _ _ _ _ hpc, RPc.isIfFirst, RPc.isDbLock, Bool.toNat_true,
          Bool.toNat_false, Nat.add_zero, Nat.sub_zero, Nat.add_sub_cancel] <;>
        (try split_ifs) <;> omega
  | w j =>
    simp only [step] at h
    rcases hpc : s.ws[j]? with _ | pc
    · simp [stepW, hpc] at h
    · cases pc <;> simp only [stepW, hpc] at h <;> (try split at h) <;>
        simp only [Outcome.next.injEq, reduceCtorEq] at h <;> subst h <;>
        simp [evUp, evRLock, State.firstPending, State.nR, State.setW, countP_wake s.rs]

/-- Along a step, the readers that lowered `readerCount` from 1 to 0 and the readers that
unlocked `db` differ by the readers still between the two. -/
theorem last_step {n m : Nat} {s s' : State} {t : Tid} (hr : Reach n m s)
    (h : step t s = .next s') :
    evDown t s + s.lastPending = evRUnlock t s + s'.lastPending := by
  obtain ⟨⟨i1, i2, i3, i4, i5, i6, i7, i8, i9, i10, i11, i12, i13, i14⟩, -, -⟩ := hr.inv
  have hs := statR s.rs
  have fm := toNat_facts s.mu
  simp only [State.nR, State.nW] at *
  cases t with
  | r i =>
    simp only [step] at h
    rcases hpc : s.rs[i]? with _ | pc
    · simp [stepR, hpc] at h
    · have B := lowerR s i _ hpc
      cases pc <;> simp only [stepR, hpc] at h <;> (try split at h) <;>
        simp only [Outcome.next.injEq, reduceCtorEq] at h <;> subst h <;>
        simp only [RPc.entering, RPc.isWait, RPc.isIfLast, RPc.isDbUnlock, RPc.admitted,
          RPc.isBlocked, RPc.holdsMu, RPc.isIfFirst, RPc.isDbLock, RPc.isInc, RPc.calm,
          Bool.toNat_true, Bool.toNat_false] at B <;>
        simp only [evDown, evRUnlock, hpc, State.lastPending, State.nR, State.setR,
          countP_set_eq _ _ _ _ _ hpc, RPc.isIfLast, RPc.isDbUnlock, Bool.toNat_true,
          Bool.toNat_false, Nat.add_zero, Nat.sub_zero, Nat.add_sub_cancel] <;>
        (try split_ifs) <;> omega
  | w j =>
    simp only [step] at h
    rcases hpc : s.ws[j]? with _ | pc
    · simp [stepW, hpc] at h
    · cases pc <;> simp only [stepW, hpc] at h <;> (try split at h) <;>
        simp only [Outcome.next.injEq, reduceCtorEq] at h <;> subst h <;>
        simp [evDown, evRUnlock, State.lastPending, State.nR, State.setW, countP_wake s.rs]

/-- The step of a writer leaves the other writers where they are. -/
theorem stepW_other {s s' : State} {k : Nat} (h : stepW k s = .next s') (j : Nat)
    (hk : k ≠ j) : s'.ws[j]? = s.ws[j]? := by
  rcases hpc : s.ws[k]? with _ | pc
  · simp [stepW, hpc] at h
  · cases pc <;> simp only [stepW, hpc] at h <;> (try split at h) <;>
      simp only [Outcome.next.injEq, reduceCtorEq] at h <;> subst h <;>
      simp only [State.setW, get_set_ne _ _ _ _ hk]

/-- Along a step, writer `j` passes its `db.Lock()`, respectively its `db.Unlock()`,
exactly when the step is that call. -/
theorem writer_flag_step {s s' : State} {t : Tid} (h : step t s = .next s') (j : Nat) :
    evWLock j t s + s.wFlag WPc.wasAdmitted j = s'.wFlag WPc.wasAdmitted j ∧
    evWUnlock j t s + s.wFlag WPc.released j = s'.wFlag WPc.released j := by
  cases t with
  | r i =>
    simp only [step] at h
    simp [evWLock, evWUnlock, State.wFlag, stepR_ws h]
  | w k =>
    simp only [step] at h
    by_cases hk : k = j
    · subst hk
      rcases hpc : s.ws[k]? with _ | pc
      · simp [stepW, hpc] at h
      · cases pc <;> simp only [stepW, hpc] at h <;> (try split at h) <;>
          simp only [Outcome.next.injEq, reduceCtorEq] at h <;> subst h <;>
          simp [evWLock, evWUnlock, State.wFlag, hpc, State.setW,
            get_set_self _ _ _ _ hpc, WPc.wasAdmitted, WPc.released]
    · have ho := stepW_other h j hk
      simp only [evWLock, evWUnlock, State.wFlag, ho, hk]
      constructor <;> split <;> simp

/-- The counts of a run and the flags of its first and last state. -/
theorem countRun_balance {n m : Nat} (sched : List Tid) (s s' : State) (hr : Reach n m s)
    (h : run sched s = some s') :
    countRun evUp sched s + s.firstPending = countRun evRLock sched s + s'.firstPending ∧
    countRun evDown sched s + s.lastPending = countRun evRUnlock sched s + s'.lastPending ∧
    ∀ j : Nat,
      countRun (evWLock j) sched s + s.wFlag WPc.wasAdmitted j = s'.wFlag WPc.wasAdmitted j ∧
      countRun (evWUnlock j) sched s + s.wFlag WPc.released j = s'.wFlag WPc.released j := by
  induction sched generalizing s with
  | nil =>
    simp [run] at h
    subst h
    simp [countRun]
  | cons t ts ih =>
    simp only [run] at h
    split at h
    · rename_i s1 hs1
      obtain ⟨a1, a2, a3⟩ := ih s1 (Reach.step t hr hs1) h
      have b1 := first_step hr hs1
      have b2 := last_step hr hs1
      refine ⟨?_, ?_, ?_⟩
      · simp only [countRun, hs1]; omega
      · simp only [countRun, hs1]; omega
      · intro j
        have b3 := writer_flag_step hs1 j
        have a3j := a3 j
        simp only [countRun, hs1]
        constructor <;> omega
    · simp at h

/-! ## Balanced locking -/

theorem pending_le_one {n m : Nat} {s : State} (hr : Reach n m s) :
    s.firstPending ≤ 1 ∧ s.lastPending ≤ 1 := by
  obtain ⟨⟨i1, i2, i3, i4, i5, i6, i7, i8, i9, i10, i11, i12, i13, i14⟩, -, -⟩ := hr.inv
  have hs := statR s.rs
  have fm := toNat_facts s.mu
  simp only [State.nR, State.nW, State.firstPending, State.lastPending] at *
  constructor <;> split_ifs <;> omega

theorem pending_init (n m : Nat) (j : Nat) :
    (init n m).firstPending = 0 ∧ (init n m).lastPending = 0 ∧
    (init n m).wFlag WPc.wasAdmitted j = 0 ∧ (init n m).wFlag WPc.released j = 0 := by
  refine ⟨?_, ?_, ?_, ?_⟩
  · simp [State.firstPending, State.nR, RW.init, List.countP_replicate, RPc.isDbLock,
      RPc.isIfFirst]
  · simp [State.lastPending, State.nR, RW.init, List.countP_replicate, RPc.isDbUnlock,
      RPc.isIfLast]
  · simp only [State.wFlag, RW.init, List.getElem?_replicate]
    split_ifs <;> simp [WPc.wasAdmitted]
  · simp only [State.wFlag, RW.init, List.getElem?_replicate]
    split_ifs <;> simp [WPc.released]

theorem pending_done {s : State} (hd : s.allDone) :
    s.firstPending = 0 ∧ s.lastPending = 0 := by
  have z : ∀ p : RPc → Bool, p RPc.done = false → s.rs.countP p = 0 := by
    intro p hp
    rw [List.countP_eq_zero]
    intro a ha
    rw [hd.1 a ha, hp]
    simp
  simp [State.firstPending, State.lastPending, State.nR, z RPc.isDbLock rfl,
    z RPc.isIfFirst rfl, z RPc.isDbUnlock rfl, z RPc.isIfLast rfl]

/-- C13. Balanced locking: in every execution of `n` readers and `m` writers no step is the
fatal "unlock of unlocked mutex" (a task at a `mu.Unlock()` or `cond.Wait()` finds `mu`
locked, a task at a `db.Unlock()` finds `db` locked). Along the execution the number of
`readerCount++` from 0 to 1 is the number of `db.Lock()` of readers plus the at most one
reader that is between the two, the number of `readerCount--` from 1 to 0 is the number of
`db.Unlock()` of readers plus the at most one reader between the two, and a writer has
executed `db.Lock()` once if it is past that call and never otherwise, and likewise for
`db.Unlock()`. When every task has returned the counts agree exactly and every writer has
locked and unlocked `db` exactly once. -/
theorem balanced_locking (n m : Nat) (sched : List Tid) (s : State)
    (h : run sched (init n m) = some s) :
    (∀ t : Tid, step t s ≠ .fatal) ∧
    (∀ (i : Nat) (pc : RPc), s.rs[i]? = some pc →
      (pc.holdsMu = true → s.mu = true) ∧ (pc = RPc.dbUnlock → s.db = true)) ∧
    (∀ (j : Nat) (pc : WPc), s.ws[j]? = some pc →
      (pc.holdsMu = true → s.mu = true) ∧ (pc = WPc.dbUnlock → s.db = true)) ∧
    countRun evUp sched (init n m) = countRun evRLock sched (init n m) + s.firstPending ∧
    s.firstPending ≤ 1 ∧
    countRun evDown sched (init n m) = countRun evRUnlock sched (init n m) + s.lastPending ∧
    s.lastPending ≤ 1 ∧
    (∀ j : Nat,
      countRun (evWLock j) sched (init n m) = s.wFlag WPc.wasAdmitted j ∧
      countRun (evWUnlock j) sched (init n m) = s.wFlag WPc.released j) ∧
    (s.allDone →
      countRun evUp sched (init n m) = countRun evRLock sched (init n m) ∧
      countRun evDown sched (init n m) = countRun evRUnlock sched (init n m) ∧
      ∀ j : Nat, j < m →
        countRun (evWLock j) sched (init n m) = 1 ∧
        countRun (evWUnlock j) sched (init n m) = 1) := by
  have hr : Reach n m s := Reach.of_run sched Reach.init h
  obtain ⟨c1, c2, c3⟩ := countRun_balance sched (init n m) s Reach.init h
  obtain ⟨p1, p2⟩ := pending_le_one hr
  obtain ⟨L1, L2, -, -⟩ := hr.locks
  have wj : ∀ j : Nat,
      countRun (evWLock j) sched (init n m) = s.wFlag WPc.wasAdmitted j ∧
      countRun (evWUnlock j) sched (init n m) = s.wFlag WPc.released j := by
    intro j
    have := c3 j
    have := pending_init n m j
    constructor <;> omega
  have z := pending_init n m 0
  refine ⟨fun t => hr.no_fatal t, ?_, ?_, by omega, p1, by omega, p2, wj, ?_⟩
  · intro i pc hi
    constructor
    · intro hp
      have := countP_get_pos _ _ i pc hi hp
      exact (L1 (by simp only [State.nR]; omega)).1
    · intro e
      subst e
      have := (hr.inv.1.dbUnl (countP_get_pos _ _ i _ hi rfl)).2.1
      cases hd : s.db <;> simp [hd] at this ⊢
  · intro j pc hj
    constructor
    · intro hp
      have := countP_get_pos _ _ j pc hj hp
      exact (L1 (by simp only [State.nW]; omega)).1
    · intro e
      subst e
      exact (L2 (countP_get_pos _ _ j _ hj rfl)).1
  · intro hd
    obtain ⟨d1, d2⟩ := pending_done hd
    refine ⟨by omega, by omega, ?_⟩
    intro j hj
    have hlen := hr.inv.2.2
    have hget : s.ws[j]? = some (s.ws[j]) := List.getElem?_eq_getElem (by omega)
    have hdone : s.ws[j]? = some WPc.done := by
      rw [hget, hd.2 _ (List.getElem?_mem hget)]
    have := wj j
    simp only [State.wFlag, hdone, WPc.wasAdmitted, WPc.released, Bool.toNat_true] at this
    exact this

theorem balanced_locking_witness :
    run demoSched (init 5 3) = some demoFinal ∧
      countRun evUp demoSched (init 5 3) = countRun evRLock demoSched (init 5 3) ∧
      countRun evDown demoSched (init 5 3) = countRun evRUnlock demoSched (init 5 3) ∧
      countRun evUp demoSched (init 5 3) = 4 ∧
      ∀ j : Nat, j < 3 →
        countRun (evWLock j) demoSched (init 5 3) = 1 ∧
        countRun (evWUnlock j) demoSched (init 5 3) = 1 :=
  ⟨by decide,
   ((balanced_locking 5 3 demoSched demoFinal (by decide)).2.2.2.2.2.2.2.2 (by decide)).1,
   ((balanced_locking 5 3 demoSched demoFinal (by decide)).2.2.2.2.2.2.2.2 (by decide)).2.1,
   by decide,
   ((balanced_locking 5 3 demoSched demoFinal (by decide)).2.2.2.2.2.2.2.2 (by decide)).2.2⟩

/-! ## Erasure of the verbose variants -/

theorem erase_vwake (l : List VRPc) :
    (l.map vwake).map VRPc.erase = (l.map VRPc.erase).map wake := by
  induction l with
  | nil => rfl
  | cons a l ih =>
    simp only [List.map_cons, ih]
    cases a <;> rfl

theorem erase_vwake_pc (a : VRPc) : (vwake a).erase = wake a.erase := by
  cases a <;> rfl

theorem erase_fields (s : VState) :
    s.erase.value = s.value ∧ s.erase.readerCount = s.readerCount ∧
    s.erase.pendingWriters = s.pendingWriters ∧ s.erase.mu = s.mu ∧ s.erase.db = s.db :=
  ⟨rfl, rfl, rfl, rfl, rfl⟩

theorem map_set_same {α β : Type} (f : α → β) (l : List α) (i : Nat) (old new : α)
    (h : l[i]? = some old) (hf : f new = f old) : (l.set i new).map f = l.map f := by
  induction l generalizing i with
  | nil => simp at h
  | cons a l ih =>
    cases i with
    | zero =>
      simp at h
      subst h
      simp [hf]
    | succ i =>
      simp at h
      simp [ih i h]

theorem erase_sayR (s : VState) (i : Nat) (line : VLine) (pc old : VRPc)
    (h : s.rs[i]? = some old) (hl : line.erase = none) (hp : pc.erase = old.erase) :
    (s.sayR i line pc).erase = s.erase := by
  simp [VState.erase, VState.sayR, VState.setR, map_set_same _ _ _ _ _ h hp,
    List.filterMap_append, hl]

theorem erase_sayW (s : VState) (j : Nat) (line : VLine) (pc old : VWPc)
    (h : s.ws[j]? = some old) (hl : line.erase = none) (hp : pc.erase = old.erase) :
    (s.sayW j line pc).erase = s.erase := by
  simp [VState.erase, VState.sayW, VState.setW, map_set_same _ _ _ _ _ h hp,
    List.filterMap_append, hl]

/-- A statement that only prints changes nothing of the erased state and is followed by a
statement of the minimal variant. -/
theorem say_step (s : VState) (t : Tid) (h : s.saying t = true) :
    ∃ s' : VState, vstep t s = .next s' ∧ s'.erase = s.erase ∧ s'.saying t = false := by
  cases t with
  | r i =>
    simp only [VState.saying] at h
    rcases hpc : s.rs[i]? with _ | pc
    · simp [hpc] at h
    · simp only [hpc] at h
      cases pc <;> simp only [VRPc.isSay, reduceCtorEq] at h <;>
        simp only [vstep, vstepR, hpc] <;> refine ⟨_, rfl, ?_, ?_⟩ <;>
        first
        | exact erase_sayR s i _ _ _ hpc rfl rfl
        | simp [VState.saying, VState.sayR, VState.setR, get_set_self _ _ _ _ hpc,
            VRPc.isSay]
  | w j =>
    simp only [VState.saying] at h
    rcases hpc : s.ws[j]? with _ | pc
    · simp [hpc] at h
    · simp only [hpc] at h
      cases pc <;> simp only [VWPc.isSay, reduceCtorEq] at h <;>
        simp only [vstep, vstepW, hpc] <;> refine ⟨_, rfl, ?_, ?_⟩ <;>
        first
        | exact erase_sayW s j _ _ _ hpc rfl rfl
        | simp [VState.saying, VState.sayW, VState.setW, get_set_self _ _ _ _ hpc,
            VWPc.isSay]

/-- A statement that does not only print is the same statement of the minimal variant:
the outcomes correspond. -/
theorem real_step (s : VState) (t : Tid) (h : s.saying t = false) :
    (vstep t s).erase = step t s.erase := by
  cases t with
  | r i =>
    simp only [VState.saying] at h
    rcases hpc : s.rs[i]? with _ | pc
    · simp [vstep, step, vstepR, stepR, hpc, VState.erase, VOutcome.erase]
    · simp only [hpc] at h
      have he : s.erase.rs[i]? = some pc.erase := by simp [VState.erase, hpc]
      cases pc <;> simp only [VRPc.isSay, reduceCtorEq] at h <;>
        simp only [vstep, step, vstepR, stepR, hpc, he, VRPc.erase, (erase_fields s).1,
          (erase_fields s).2.1, (erase_fields s).2.2.1, (erase_fields s).2.2.2.1,
          (erase_fields s).2.2.2.2] <;>
        (try split_ifs) <;>
        simp [VOutcome.erase, VState.erase, VState.setR, State.setR, VState.sayR,
          List.map_set, VRPc.erase, List.filterMap_append, VLine.erase]
  | w j =>
    simp only [VState.saying] at h
    rcases hpc : s.ws[j]? with _ | pc
    · simp [vstep, step, vstepW, stepW, hpc, VState.erase, VOutcome.erase]
    · simp only [hpc] at h
      have he : s.erase.ws[j]? = some pc.erase := by simp [VState.erase, hpc]
      cases pc <;> simp only [VWPc.isSay, reduceCtorEq] at h <;>
        simp only [vstep, step, vstepW, stepW, hpc, he, VWPc.erase, (erase_fields s).1,
          (erase_fields s).2.1, (erase_fields s).2.2.1, (erase_fields s).2.2.2.1,
          (erase_fields s).2.2.2.2] <;>
        (try split_ifs) <;>
        simp [VOutcome.erase, VState.erase, VState.setW, State.setW, VState.sayW,
          List.map_set, VWPc.erase, List.filterMap_append, VLine.erase, erase_vwake_pc]

/-! ## Equivalence of the output variants -/

theorem erase_next (o : VOutcome) (s1 : State) (h : o.erase = .next s1) :
    ∃ vs : VState, o = .next vs ∧ vs.erase = s1 := by
  cases o <;> simp [VOutcome.erase] at h
  exact ⟨_, rfl, h⟩

/-- Erasing the statements that only print maps a run of the verbose variants to a run of
the minimal variants. -/
theorem vrun_erase (sched : List Tid) (vs vs' : VState) (h : vrun sched vs = some vs') :
    ∃ sched' : List Tid, sched'.Sublist sched ∧ run sched' vs.erase = some vs'.erase := by
  induction sched generalizing vs with
  | nil =>
    simp [vrun] at h
    subst h
    exact ⟨[], List.Sublist.refl _, rfl⟩
  | cons t ts ih =>
    simp only [vrun] at h
    split at h
    · rename_i vs1 hs1
      obtain ⟨sched1, hsub, hrun⟩ := ih vs1 h
      cases hsay : vs.saying t
      · have hreal := real_step vs t hsay
        rw [hs1] at hreal
        simp only [VOutcome.erase] at hreal
        exact ⟨t :: sched1, hsub.cons₂ t, by simp [run, ← hreal, hrun]⟩
      · obtain ⟨vs2, h2, he, -⟩ := say_step vs t hsay
        rw [hs1] at h2
        simp only [VOutcome.next.injEq] at h2
        subst h2
        rw [he] at hrun
        exact ⟨sched1, hsub.cons t, hrun⟩
    · simp at h

/-- Every run of the minimal variants is the erasure of a run of the verbose variants. -/
theorem run_lift (sched : List Tid) (s s' : State) (h : run sched s = some s')
    (vs : VState) (he : vs.erase = s) :
    ∃ (vsched : List Tid) (vs' : VState),
      sched.Sublist vsched ∧ vrun vsched vs = some vs' ∧ vs'.erase = s' := by
  induction sched generalizing s vs with
  | nil =>
    simp [run] at h
    subst h
    exact ⟨[], vs, List.Sublist.refl _, rfl, he⟩
  | cons t ts ih =>
    simp only [run] at h
    split at h
    · rename_i s1 hs1
      subst he
      cases hsay : vs.saying t
      · have hreal := real_step vs t hsay
        rw [hs1] at hreal
        obtain ⟨vs1, hv1, he1⟩ := erase_next _ _ hreal
        obtain ⟨vsched, vs', hsub, hrun, he'⟩ := ih s1 h vs1 he1
        exact ⟨t :: vsched, vs', hsub.cons₂ t, by simp [vrun, hv1, hrun], he'⟩
      · obtain ⟨vs0, h0, he0, hsay0⟩ := say_step vs t hsay
        have hreal := real_step vs0 t hsay0
        rw [he0, hs1] at hreal
        obtain ⟨vs1, hv1, he1⟩ := erase_next _ _ hreal
        obtain ⟨vsched, vs', hsub, hrun, he'⟩ := ih s1 h vs1 he1
        exact ⟨t :: t :: vsched, vs', (hsub.cons₂ t).cons t,
          by simp [vrun, h0, hv1, hrun], he'⟩
    · simp at h

/-- C11. The output variants are equivalent: the verbose variants start in a state that
is erased to the initial state of the minimal variants; a statement of a verbose variant
that only prints can always be executed and changes neither a global nor the statement of
`reader` or `writer` the task is at; every other statement has exactly the outcome of the
statement of `reader` or `writer` it is erased to (the same effect on `mu`, `db`, the notify
list, `readerCount`, `pendingWriters` and `*p`, blocked, fatal or returned alike). Hence
erasing the print-only steps maps every execution of the verbose variants to an execution of
the minimal variants through the erased states, and every execution of the minimal variants
is obtained in this way. -/
theorem verbose_equivalent (n m : Nat) :
    (vinit n m).erase = init n m ∧
    (∀ (s : VState) (t : Tid), s.saying t = true →
      ∃ s' : VState, vstep t s = .next s' ∧ s'.erase = s.erase ∧ s'.saying t = false) ∧
    (∀ (s : VState) (t : Tid), s.saying t = false → (vstep t s).erase = step t s.erase) ∧
    (∀ (sched : List Tid) (vs' : VState), vrun sched (vinit n m) = some vs' →
      ∃ sched' : List Tid, sched'.Sublist sched ∧ run sched' (init n m) = some vs'.erase) ∧
    (∀ (sched : List Tid) (s' : State), run sched (init n m) = some s' →
      ∃ (vsched : List Tid) (vs' : VState),
        sched.Sublist vsched ∧ vrun vsched (vinit n m) = some vs' ∧ vs'.erase = s') := by
  have h0 : (vinit n m).erase = init n m := by
    simp [vinit, RW.init, VState.erase, VRPc.erase, VWPc.erase]
  refine ⟨h0, say_step, real_step, ?_, ?_⟩
  · intro sched vs' h
    have := vrun_erase sched _ vs' h
    rwa [h0] at this
  · intro sched s' h
    exact run_lift sched _ s' h (vinit n m) h0

theorem verbose_equivalent_witness :
    ∃ sched' : List Tid, sched'.Sublist (solo (.w 0) 19) ∧
      run sched' (init 1 1) = some
        (VState.erase { vinit 1 1 with
          value := 5, ws := [.done],
          out := [.writerWants 0, .writerWaitDb 0, .writerGot 0, .writerWrote 0 5,
            .writerDone 0, .writerLast 0] }) :=
  (verbose_equivalent 1 1).2.2.2.1 (solo (.w 0) 19) _ (by decide)

/-! ## The release part of the writer in an execution -/

theorem release_contract_counterexample :
    run busyReleaseSched (init 1 2) = some busyRelease ∧
      busyRelease.ws[0]? = some WPc.dbUnlock ∧ busyRelease.db = true ∧
      busyRelease.pendingWriters = 1 ∧
      run busyInterleaving busyRelease = some busyReleased ∧
      busyReleased.ws[0]? = some WPc.done ∧ busyReleased.pendingWriters ≠ 1 - 1 ∧
      busyReleased.rs[0]? = some RPc.blocked ∧
      run (solo (.w 0) 8 ++ solo (.r 0) 1) (init 1 1) = some heldRelease ∧
      endWrite 0 heldRelease = none := by
  decide

/-- While `mu` is locked, a step of a reader that does not hold it changes no counter and
suspends or wakes nobody. -/
theorem stepR_idle {s s' : State} {i : Nat} (h : stepR i s = .next s') (pc : RPc)
    (hpc : s.rs[i]? = some pc) (hn : pc.holdsMu = false) (hmu : s.mu = true) :
    s'.pendingWriters = s.pendingWriters ∧ s'.readerCount = s.readerCount ∧
    s'.mu = true ∧ s'.ws = s.ws ∧
    ∀ k : Nat, s'.rs[k]? = some RPc.blocked ↔ s.rs[k]? = some RPc.blocked := by
  cases pc <;> simp only [RPc.holdsMu, reduceCtorEq] at hn <;>
    simp only [stepR, hpc, hmu, if_true] at h <;>
    simp only [Outcome.next.injEq, reduceCtorEq] at h <;> subst h <;>
    refine ⟨rfl, rfl, by first | rfl | exact hmu, rfl, ?_⟩ <;> intro k <;>
    (by_cases hk : i = k
     · subst hk
       simp [State.setR, get_set_self _ _ _ _ hpc, hpc]
     · simp [State.setR, get_set_ne _ _ _ _ hk])

/-- While `mu` is locked, a step of a writer that does not hold it changes no counter and
wakes nobody. -/
theorem stepW_idle {s s' : State} {k : Nat} (h : stepW k s = .next s') (pc : WPc)
    (hpc : s.ws[k]? = some pc) (hn : pc.holdsMu = false) (hmu : s.mu = true) :
    s'.pendingWriters = s.pendingWriters ∧ s'.readerCount = s.readerCount ∧
    s'.mu = true ∧ s'.rs = s.rs := by
  cases pc <;> simp only [WPc.holdsMu, reduceCtorEq] at hn <;>
    simp only [stepW, hpc, hmu, if_true] at h <;> (try split at h) <;>
    simp only [Outcome.next.injEq, reduceCtorEq] at h <;> subst h <;>
    exact ⟨rfl, rfl, by first | rfl | exact hmu, rfl⟩

/-- C9 (amended). The release part of `writer`, statement by statement in any execution:
`db.Unlock()` (l.148) finds `db` locked and `pendingWriters ≥ 1` and unlocks `db`, changing
nothing else; `mu.Lock()` (l.150) waits while `mu` is locked; `pendingWriters--` (l.152)
lowers by one the value `pendingWriters` has at that moment, which is at least 1; the test
(l.153) leads to `cond.Broadcast()` exactly when the lowered value is 0; `cond.Broadcast()`
(l.154) notifies every reader suspended in `cond.Wait()` and moves no other reader;
`mu.Unlock()` (l.156) unlocks `mu`; none of them changes `readerCount` or the shared value,
and while the writer holds `mu` no other task changes `pendingWriters`, `readerCount` or
the set of suspended readers. When `mu` is unlocked and no other task takes a step in
between, the release part run from `pendingWriters = w` leaves `db` unlocked,
`pendingWriters = w - 1`, `readerCount`, the value and the output unchanged, and has
notified the suspended readers if `w - 1 = 0` and moved no reader otherwise. -/
theorem release_contract (n m : Nat) (s : State) (h : Reach n m s) (j : Nat) :
    (s.ws[j]? = some WPc.dbUnlock →
      s.db = true ∧ 1 ≤ s.pendingWriters ∧
      stepW j s = .next ({ s with db := false }.setW j WPc.lock2) ∧
      (s.mu = false →
        ∃ s' : State, endWrite j s = some s' ∧
          s'.db = false ∧ s'.pendingWriters = s.pendingWriters - 1 ∧
          s'.readerCount = s.readerCount ∧ s'.value = s.value ∧ s'.mu = false ∧
          s'.out = s.out ∧ s'.ws = s.ws.set j WPc.done ∧
          (s.pendingWriters - 1 = 0 → s'.rs = s.rs.map wake ∧
            ∀ i : Nat, s.rs[i]? = some RPc.blocked → s'.rs[i]? = some RPc.woken) ∧
          (s.pendingWriters - 1 ≠ 0 → s'.rs = s.rs))) ∧
    (s.ws[j]? = some WPc.lock2 →
      1 ≤ s.pendingWriters ∧
      (s.mu = true → stepW j s = .blocked) ∧
      (s.mu = false → stepW j s = .next ({ s with mu := true }.setW j WPc.dec))) ∧
    (s.ws[j]? = some WPc.dec →
      1 ≤ s.pendingWriters ∧ s.mu = true ∧
      stepW j s =
        .next ({ s with pendingWriters := s.pendingWriters - 1 }.setW j WPc.ifZero)) ∧
    (s.ws[j]? = some WPc.ifZero →
      0 ≤ s.pendingWriters ∧ s.mu = true ∧
      (s.pendingWriters = 0 → stepW j s = .next (s.setW j WPc.broadcast)) ∧
      (s.pendingWriters ≠ 0 → stepW j s = .next (s.setW j WPc.unlock2))) ∧
    (s.ws[j]? = some WPc.broadcast →
      s.mu = true ∧
      stepW j s = .next ({ s with rs := s.rs.map wake }.setW j WPc.unlock2) ∧
      ∀ (i : Nat) (pc : RPc), s.rs[i]? = some pc → (s.rs.map wake)[i]? = some (wake pc)) ∧
    (s.ws[j]? = some WPc.unlock2 →
      s.mu = true ∧ stepW j s = .next ({ s with mu := false }.setW j WPc.done)) ∧
    (∀ (pc : WPc) (t : Tid) (s' : State), s.ws[j]? = some pc → pc.holdsMu = true →
      t ≠ Tid.w j → step t s = .next s' →
      s'.pendingWriters = s.pendingWriters ∧ s'.readerCount = s.readerCount ∧
      s'.mu = true ∧ s'.ws[j]? = some pc ∧
      ∀ k : Nat, s'.rs[k]? = some RPc.blocked ↔ s.rs[k]? = some RPc.blocked) := by
  obtain ⟨L1, L2, -, -⟩ := h.locks
  obtain ⟨hI, -, -⟩ := h.inv
  have hpw := hI.pw
  simp only [State.nW] at hpw
  have held : ∀ pc : WPc, s.ws[j]? = some pc → pc.holdsMu = true →
      s.mu = true ∧ s.nR RPc.holdsMu + s.nW WPc.holdsMu = 1 := by
    intro pc hj hp
    have := countP_get_pos _ _ j pc hj hp
    exact L1 (by simp only [State.nW]; omega)
  have pend : ∀ pc : WPc, s.ws[j]? = some pc → pc.pending = true → 1 ≤ s.pendingWriters := by
    intro pc hj hp
    have := countP_get_pos _ _ j pc hj hp
    omega
  refine ⟨?_, ?_, ?_, ?_, ?_, ?_, ?_⟩
  · intro hj
    have hdb : s.db = true := (L2 (countP_get_pos _ _ j _ hj rfl)).1
    have h1 := pend _ hj rfl
    refine ⟨hdb, h1, by simp [stepW, hj, hdb], ?_⟩
    intro hmu
    exact end_write_contract s j s.pendingWriters hj hdb hmu rfl h1
  · intro hj
    refine ⟨pend _ hj rfl, ?_, ?_⟩ <;> intro hmu <;> simp [stepW, hj, hmu]
  · intro hj
    exact ⟨pend _ hj rfl, (held _ hj rfl).1, by simp [stepW, hj]⟩
  · intro hj
    have hmu := (held _ hj rfl).1
    refine ⟨by omega, hmu, ?_, ?_⟩ <;> intro h0 <;> simp [stepW, hj, h0]
  · intro hj
    refine ⟨(held _ hj rfl).1, by simp [stepW, hj], ?_⟩
    intro i pc hi
    simp [hi]
  · intro hj
    have hmu := (held _ hj rfl).1
    exact ⟨hmu, by simp [stepW, hj, hmu]⟩
  · intro pc t s' hj hp hne hst
    obtain ⟨hmu, hone⟩ := held pc hj hp
    have hjw := countP_get_pos _ _ j pc hj hp
    simp only [State.nR, State.nW] at hone
    cases t with
    | r i =>
      simp only [step] at hst
      rcases hpc : s.rs[i]? with _ | pci
      · simp [stepR, hpc] at hst
      · have hn : pci.holdsMu = false := by
          apply countP_zero_get _ _ i pci _ hpc
          omega
        obtain ⟨a1, a2, a3, a4, a5⟩ := stepR_idle hst pci hpc hn hmu
        exact ⟨a1, a2, a3, by rw [a4]; exact hj, a5⟩
    | w k =>
      simp only [step] at hst
      have hkj : k ≠ j := fun e => hne (by rw [e])
      rcases hpc : s.ws[k]? with _ | pck
      · simp [stepW, hpc] at hst
      · have hn : pck.holdsMu = false := by
          cases hh : pck.holdsMu
          · rfl
          · exact absurd (countP_le_one_get _ _ k j pck pc (by omega) hpc hj hh hp) hkj
        obtain ⟨a1, a2, a3, a4⟩ := stepW_idle hst pck hpc hn hmu
        refine ⟨a1, a2, a3, by rw [stepW_other hst j hkj]; exact hj, ?_⟩
        intro i
        rw [a4]

theorem release_contract_witness :
    Reach 2 1 lastWrite ∧ lastWrite.db = true ∧ 1 ≤ lastWrite.pendingWriters ∧
      stepW 0 lastWrite = .next ({ lastWrite with db := false }.setW 0 WPc.lock2) :=
  ⟨reach_lastWrite,
   ((release_contract 2 1 lastWrite reach_lastWrite 0).1 (by decide)).1,
   ((release_contract 2 1 lastWrite reach_lastWrite 0).1 (by decide)).2.1,
   ((release_contract 2 1 lastWrite reach_lastWrite 0).1 (by decide)).2.2.1⟩

end RW
